import Mathlib

/-!
Verification of the asset-liability bucketing / reconciliation core.

Shallow embedding of the Python sources:
  * `alm_app/functions/cashflow_acc_aggr.py` (bucket generation, aggregation)
  * `alm_app/functions/repo_alignment.py` (balance reconciler)
  * `alm_app/functions/bucket_column_sync.py` (schema synchronizer)
  * `alm_app/functions/report_behavioural_loader.py` (behavioural respreader)
  * `alm_app/functions/report_contractual_cons_loader.py` (currency consolidator)
  * `alm_app/functions_view/execute.py` (pipeline resume)

Dates are modelled as proleptic-Gregorian (year, month, day) triples;
`Decimal` amounts as rationals with explicit two-decimal quantization.
-/

set_option allowUnsafeReducibility true

attribute [semireducible] Rat.add Rat.sub Rat.mul Rat.div Rat.inv

namespace ALM

/-! ## Calendar

Mirrors Python `datetime.date` plus the `timedelta(days=·)` /
`relativedelta(months=·, years=·)` arithmetic used by
`_build_bucket_ranges`.  Years are natural numbers (the system only ever
handles CE snapshot dates); month arithmetic clamps the day-of-month the
way `dateutil.relativedelta` does.
-/

def isLeap (y : ℕ) : Bool :=
  (y % 4 == 0 && y % 100 != 0) || y % 400 == 0

/-- Days in a month (month 1..12; out-of-range months never arise for
valid dates and default to 31). -/
def daysInMonth (y : ℕ) (m : ℕ) : ℕ :=
  match m with
  | 2 => if isLeap y then 29 else 28
  | 4 => 30
  | 6 => 30
  | 9 => 30
  | 11 => 30
  | _ => 31

structure Date where
  year : ℕ
  month : ℕ
  day : ℕ
  deriving DecidableEq, Repr

/-- A calendar-valid date. -/
def Date.Valid (d : Date) : Prop :=
  1 ≤ d.month ∧ d.month ≤ 12 ∧ 1 ≤ d.day ∧ d.day ≤ daysInMonth d.year d.month

instance (d : Date) : Decidable d.Valid := by
  unfold Date.Valid; infer_instance

/-- Next calendar day (the `end + timedelta(days=1)` step). -/
def succDay (d : Date) : Date :=
  if d.day < daysInMonth d.year d.month then
    ⟨d.year, d.month, d.day + 1⟩
  else if d.month < 12 then
    ⟨d.year, d.month + 1, 1⟩
  else
    ⟨d.year + 1, 1, 1⟩

/-- Previous calendar day (only used for negative `timedelta`s, which no
well-formed configuration produces). -/
def predDay (d : Date) : Date :=
  if 1 < d.day then
    ⟨d.year, d.month, d.day - 1⟩
  else if 1 < d.month then
    ⟨d.year, d.month - 1, daysInMonth d.year (d.month - 1)⟩
  else
    ⟨d.year - 1, 12, 31⟩

/-- `date + timedelta(days=n)`. -/
def addDays (d : Date) (n : ℤ) : Date :=
  if 0 ≤ n then succDay^[n.toNat] d else predDay^[(-n).toNat] d

/-- The date with month index `t` (year `t / 12`, month `t % 12 + 1`)
whose day is `day` clamped to the month length. -/
def ofMonthIdx (t : ℕ) (day : ℕ) : Date :=
  ⟨t / 12, t % 12 + 1, min day (daysInMonth (t / 12) (t % 12 + 1))⟩

/-- `date + relativedelta(months=k)`: move the month index and clamp the
day to the destination month length (as `dateutil` does).  The month
index is clamped at year 0 for negative overflows, which valid inputs
never hit. -/
def addMonths (d : Date) (k : ℤ) : Date :=
  ofMonthIdx ((12 * d.year + (d.month - 1) : ℤ) + k).toNat d.day

/-- `date + relativedelta(years=k)`: shift the year, clamping Feb 29. -/
def addYears (d : Date) (k : ℤ) : Date :=
  ⟨((d.year : ℤ) + k).toNat, d.month,
    min d.day (daysInMonth ((d.year : ℤ) + k).toNat d.month)⟩

/-- Days elapsed before month-index `t` (month index `t` = month
`t % 12 + 1` of year `t / 12`), counting from 0000-01-01. -/
def daysBeforeMonthIdx : ℕ → ℕ
  | 0 => 0
  | t + 1 => daysBeforeMonthIdx t + daysInMonth (t / 12) (t % 12 + 1)

/-- Linear day number of a date (1 = 0000-01-01 for valid dates). -/
def ord (d : Date) : ℕ :=
  daysBeforeMonthIdx (12 * d.year + (d.month - 1)) + d.day

/-- Calendar order on dates, via the day number. -/
def Date.ordLE (a b : Date) : Prop := ord a ≤ ord b

instance (a b : Date) : Decidable (a.ordLE b) := by
  unfold Date.ordLE; infer_instance

/-! ## Decimal quantization

`Decimal.quantize(Decimal("0.01"), ROUND_HALF_UP)`: round to two decimal
places, ties away from zero (Python's `ROUND_HALF_UP`). -/

/-- `x.quantize(Decimal("0.01"), ROUND_HALF_UP)` on a rational amount. -/
def roundHU2 (x : ℚ) : ℚ :=
  if 0 ≤ x then (⌊x * 100 + 1 / 2⌋ : ℚ) / 100
  else -((⌊-x * 100 + 1 / 2⌋ : ℚ) / 100)

/-- An amount representable in `NUMERIC(·,2)`: an integer number of cents. -/
def TwoDp (x : ℚ) : Prop := ∃ n : ℤ, x = (n : ℚ) / 100

/-- Sum of a list of rational amounts (Python `sum(...)`). -/
def sumList (l : List ℚ) : ℚ := l.sum

/-! ## Bucket Definition Generator

`cashflow_acc_aggr._build_bucket_ranges` and
`cashflow_acc_aggr._refresh_timebucket_master`. -/

/-- One `TimeBuckets` configuration row (`alm_app.models.TimeBuckets`):
`frequency` is a plain `IntegerField`, `multiplier` a free string. -/
structure TimeBucketsRow where
  serial_number : ℤ
  frequency : ℤ
  multiplier : String
  deriving DecidableEq, Repr

/-- One persisted `TimeBucketMaster` row. -/
structure TimeBucketMasterRow where
  process_name : String
  bucket_number : ℕ
  start_date : Date
  end_date : Date
  fic_mis_date : Option Date
  deriving DecidableEq, Repr

/-- The loop body of `_build_bucket_ranges`: walk the definitions in
order; `end = start + frequency` under the row's unit, next
`start = end + 1 day`; unknown units raise `ValueError`. -/
def buildBucketRangesAux (start : Date) :
    List TimeBucketsRow → Except String (List (Date × Date))
  | [] => .ok []
  | tb :: rest =>
    if tb.multiplier = "Days" then
      (buildBucketRangesAux (addDays (addDays start tb.frequency) 1) rest).map
        (fun rs => (start, addDays start tb.frequency) :: rs)
    else if tb.multiplier = "Months" then
      (buildBucketRangesAux (addDays (addMonths start tb.frequency) 1) rest).map
        (fun rs => (start, addMonths start tb.frequency) :: rs)
    else if tb.multiplier = "Years" then
      (buildBucketRangesAux (addDays (addYears start tb.frequency) 1) rest).map
        (fun rs => (start, addYears start tb.frequency) :: rs)
    else
      .error ("Unsupported multiplier: " ++ tb.multiplier)

/-- `_build_bucket_ranges(anchor_date, tb_rows)`. -/
def buildBucketRanges (anchor : Date) (tbRows : List TimeBucketsRow) :
    Except String (List (Date × Date)) :=
  buildBucketRangesAux anchor tbRows

/-- The rows `_refresh_timebucket_master` bulk-creates for `ranges`:
1-based dense bucket numbers in sequence order. -/
def masterRowsFor (process : String) (ficMisDate : Date)
    (ranges : List (Date × Date)) : List TimeBucketMasterRow :=
  ranges.enum.map (fun ie => ⟨process, ie.1 + 1, ie.2.1, ie.2.2, some ficMisDate⟩)

/-- `_refresh_timebucket_master`: delete all rows for this
(process, snapshot date), then bulk-create the new ones. -/
def refreshTimebucketMaster (process : String) (ranges : List (Date × Date))
    (ficMisDate : Date) (rows : List TimeBucketMasterRow) :
    List TimeBucketMasterRow :=
  rows.filter
      (fun r => !(decide (r.process_name = process ∧ r.fic_mis_date = some ficMisDate)))
    ++ masterRowsFor process ficMisDate ranges

/-- The invariant carried along the generated ranges: each range starts
where expected, ends on a valid date not before its start, and the next
range starts the following day. -/
def RangesChain : Date → List (Date × Date) → Prop
  | _, [] => True
  | start, (s, e) :: rest =>
      s = start ∧ e.Valid ∧ ord s ≤ ord e ∧ RangesChain (succDay e) rest

/-! ## Balance Reconciler

`repo_alignment.align_buckets_to_balance`. -/

/-- One row of the per-snapshot `Report_Contractual_<YYYYMMDD>` relation,
restricted to the fields the reconciler reads; `buckets` holds the bucket
column values in column order (SQL `COALESCE(col, 0)` applied). -/
structure ReportRow where
  id : ℕ
  fic_mis_date : Date
  v_prod_code : String
  v_ccy_code : String
  v_prod_type : String
  process_name : String
  buckets : List ℚ
  deriving DecidableEq, Repr

/-- One `product_balance` row (`alm_app.models.ProductBalance`). -/
structure ProductBalanceRow where
  fic_mis_date : Date
  v_prod_code : String
  v_ccy_code : String
  n_balance : ℚ
  deriving DecidableEq, Repr

/-- The reconciler's LEFT JOIN on
(fic_mis_date, v_prod_code, v_ccy_code); at most one row matches because
of the (fic_mis_date, v_prod_code) unique constraint. -/
def lookupBalance (balances : List ProductBalanceRow) (d : Date)
    (prod ccy : String) : Option ℚ :=
  ((balances.filter (fun pb =>
      decide (pb.fic_mis_date = d ∧ pb.v_prod_code = prod ∧ pb.v_ccy_code = ccy))).head?).map
    (fun pb => pb.n_balance)

/-- Python `max(candidates, key=second component)` starting from `a`:
replaces the current best only on a strictly larger key, so the first
maximal element wins. -/
def pickArgmaxFrom (a : ℕ × ℚ) : List (ℕ × ℚ) → ℕ × ℚ
  | [] => a
  | iv :: rest => if a.2 < iv.2 then pickArgmaxFrom iv rest else pickArgmaxFrom a rest

/-- Python `max(cands, key=second component)` (none on an empty list). -/
def pickArgmax : List (ℕ × ℚ) → Option (ℕ × ℚ)
  | [] => none
  | iv :: rest => some (pickArgmaxFrom iv rest)

/-- The reconciler's candidate condition
`(difference > 0 and bucket_val >= 0) or (difference < 0 and bucket_val < 0)`. -/
def SignMatch (diff v : ℚ) : Prop := (0 < diff ∧ 0 ≤ v) ∨ (diff < 0 ∧ v < 0)

instance (diff v : ℚ) : Decidable (SignMatch diff v) := by
  unfold SignMatch; infer_instance

/-- Strict sign agreement (what "sign matches the sign of the
difference" means literally: a zero bucket matches nothing). -/
def StrictSignMatch (diff v : ℚ) : Prop := (0 < diff ∧ 0 < v) ∨ (diff < 0 ∧ v < 0)

instance (diff v : ℚ) : Decidable (StrictSignMatch diff v) := by
  unfold StrictSignMatch; infer_instance

/-- Strategy 1 candidate list `(index, abs(bucket_val))` over buckets
whose value sign-matches the difference. -/
def sameSignCandidates (diff : ℚ) (vals : List ℚ) : List (ℕ × ℚ) :=
  (vals.enum.filter (fun iv => decide (SignMatch diff iv.2))).map
    (fun iv => (iv.1, |iv.2|))

/-- `best_bucket_idx` selection: largest same-sign bucket, else largest
bucket overall (`max` keeps the first maximal index on ties). -/
def chooseBucket (diff : ℚ) (vals : List ℚ) : ℕ :=
  match pickArgmax (sameSignCandidates diff vals) with
  | some jv => jv.1
  | none =>
    match pickArgmax (vals.enum.map (fun iv => (iv.1, |iv.2|))) with
    | some jv => jv.1
    | none => 0

/-- Per-row reconciliation: quantize the bucket values, compute
`difference = target − manual_sum`, and add the whole difference to the
selected bucket (only that column is written back). Rows with no
matching balance or zero difference are left unmodified. -/
def alignRow (balances : List ProductBalanceRow) (d : Date) (row : ReportRow) :
    ReportRow :=
  let bucket_values := row.buckets.map roundHU2
  let manual_sum := sumList bucket_values
  match lookupBalance balances d row.v_prod_code row.v_ccy_code with
  | none => row
  | some t =>
    let target_balance := roundHU2 t
    let difference := target_balance - manual_sum
    if difference = 0 then row
    else if bucket_values = [] then row
    else
      let k := chooseBucket difference bucket_values
      let new_value := roundHU2 (bucket_values.getD k 0 + difference)
      { row with buckets := row.buckets.set k new_value }

/-- `align_buckets_to_balance(fic_mis_date)` over the report relation
(no process filter): every row of the snapshot date is reconciled
against its product-balance record. -/
def alignBucketsToBalance (d : Date) (balances : List ProductBalanceRow)
    (rows : List ReportRow) : List ReportRow :=
  rows.map (fun r => if r.fic_mis_date = d then alignRow balances d r else r)

/-! ## Schema Synchronizer

`bucket_column_sync.sync_bucket_columns` with
`report_buckets.bucket_column_name`. -/

/-- Column identifiers as character lists. -/
abbrev ColName := List Char

/-- The SQL pattern `LIKE 'bucket_%'` used by `_get_bucket_cols_pg`:
`_` is a single-character wildcard, so this matches the six characters
of "bucket" followed by at least one arbitrary character. -/
def likeBucketPattern (n : ColName) : Bool :=
  "bucket".toList.isPrefixOf n && decide (7 ≤ n.length)

/-- A name that literally starts with "bucket_". -/
def hasBucketUnderscore (n : ColName) : Bool :=
  "bucket_".toList.isPrefixOf n

/-- Python `f"{k:0wd}"`: decimal digits left-padded with zeros. -/
def padNum (w k : ℕ) : List Char :=
  List.replicate (w - (Nat.toDigits 10 k).length) '0' ++ Nat.toDigits 10 k

/-- Python `f"{d:%Y%m%d}"`. -/
def yyyymmdd (d : Date) : List Char :=
  padNum 4 d.year ++ padNum 2 d.month ++ padNum 2 d.day

/-- `re.sub(r"[^0-9A-Za-z_]", "_", ·)` on one character. -/
def sanitizeChar (c : Char) : Char :=
  if c.isAlphanum || c = '_' then c else '_'

/-- `bucket_column_name(bucket)`: zero-padded bucket number plus the
date range, sanitized and truncated to 63 characters. -/
def bucketColumnName (b : TimeBucketMasterRow) : ColName :=
  (("bucket_".toList
      ++ (padNum 3 b.bucket_number
        ++ ("_".toList
          ++ (yyyymmdd b.start_date
            ++ ("_".toList ++ yyyymmdd b.end_date))))).map sanitizeChar).take 63

/-- `ALTER TABLE ... ADD COLUMN IF NOT EXISTS`. -/
def addColumnIfAbsent (cols : List ColName) (c : ColName) : List ColName :=
  if c ∈ cols then cols else cols ++ [c]

/-- The required bucket columns: `TimeBucketMaster` rows of the default
process, ordered by bucket number, named by `bucket_column_name`. -/
def requiredBucketColumns (tbm : List TimeBucketMasterRow)
    (processName : String) : List ColName :=
  ((tbm.filter (fun r => decide (r.process_name = processName))).insertionSort
      (fun a b => a.bucket_number ≤ b.bucket_number)).map bucketColumnName

/-- `table_name.lower()` (as a character list). -/
def lowerName (s : String) : List Char := s.toList.map Char.toLower

/-- `re.fullmatch(r"report_contractual_\d{8}", table_name.lower())`. -/
def isSnapshotName (s : String) : Bool :=
  "report_contractual_".toList.isPrefixOf (lowerName s)
    && decide ((lowerName s).length = 27)
    && ((lowerName s).drop 19).all Char.isDigit

/-- `must_rebuild = rebuild or is_snapshot or table_name.lower() in
always_rebuild`. -/
def mustRebuildFor (tableName : String) (rebuild : Bool) : Bool :=
  rebuild || isSnapshotName tableName
    || lowerName tableName == "report_contractual_base".toList

/-- Core of `sync_bucket_columns`: on a rebuild drop every column
matching LIKE 'bucket\_%', then ensure each required column exists. -/
def syncBucketColumnsCore (mustRebuild : Bool) (required : List ColName)
    (cols : List ColName) : List ColName :=
  required.foldl addColumnIfAbsent
    (if mustRebuild then cols.filter (fun c => !likeBucketPattern c) else cols)

/-- `sync_bucket_columns(table_name, rebuild)` acting on the target
relation's column list. -/
def sync_bucket_columns (tableName : String) (rebuild : Bool)
    (tbm : List TimeBucketMasterRow) (processName : String)
    (cols : List ColName) : List ColName :=
  syncBucketColumnsCore (mustRebuildFor tableName rebuild)
    (requiredBucketColumns tbm processName) cols

/-! ## Behavioral Respreader

`report_behavioural_loader.load_report_behavioural`. -/

/-- One `BehavioralPattern` with its `BehavioralPatternSplit` rows:
(bucket_number, percentage) pairs. `v_prod_type` is unique across
patterns (model constraint). -/
structure PatternRow where
  v_prod_type : String
  splits : List (ℕ × ℚ)
  deriving DecidableEq, Repr

/-- The loader's patterns dict
`{prod_type: {bucket_num: pct/100}}`, ignoring patterns with no
splits. -/
def buildPatterns (pats : List PatternRow) : List (String × List (ℕ × ℚ)) :=
  (pats.filter (fun p => !p.splits.isEmpty)).map
    (fun p => (p.v_prod_type, p.splits.map (fun s => (s.1, s.2 / 100))))

/-- `patterns.get(prod_type)`. -/
def lookupPattern (patterns : List (String × List (ℕ × ℚ))) (t : String) :
    Option (List (ℕ × ℚ)) :=
  (patterns.find? (fun p => p.1 == t)).map Prod.snd

/-- `int(parts[1].lstrip("0") or "0")` applied to `col.split("_")[1]`;
`none` models the `ValueError: continue` path. -/
def parseBucketNo (col : ColName) : Option ℕ :=
  match (col.splitOn '_').get? 1 with
  | none => none
  | some s =>
    match s.dropWhile (fun c => c = '0') with
    | [] => some 0
    | t =>
      if t.all Char.isDigit then
        some (t.foldl (fun n c => n * 10 + (c.toNat - 48)) 0)
      else none

/-- Python dict insertion: update an existing key in place, else
append. -/
def insertAssoc (m : List (ℕ × ColName)) (k : ℕ) (v : ColName) :
    List (ℕ × ColName) :=
  if m.any (fun q => q.1 == k) then
    m.map (fun q => if q.1 == k then (k, v) else q)
  else m ++ [(k, v)]

/-- `bucket_map`: bucket number → column name, built over the source
table's bucket columns; unparseable names are skipped. -/
def buildBucketMap (bucket_cols : List ColName) : List (ℕ × ColName) :=
  bucket_cols.foldl
    (fun m col =>
      match parseBucketNo col with
      | none => m
      | some no => insertAssoc m no col) []

/-- `bucket_map.get(dst_bucket_no)`. -/
def lookupAssoc (m : List (ℕ × ColName)) (k : ℕ) : Option ColName :=
  (m.find? (fun q => q.1 == k)).map Prod.snd

/-- `new_bucket_vals[c] += x` as a function update. -/
def addAt (g : ColName → ℚ) (c : ColName) (x : ℚ) : ColName → ℚ :=
  fun c' => if c' = c then g c' + x else g c'

/-- The inner loop: allocate `amt` across the pattern's splits,
dropping splits whose destination bucket has no column. -/
def spreadSplits (bmap : List (ℕ × ColName)) (amt : ℚ)
    (splits : List (ℕ × ℚ)) (g : ColName → ℚ) : ColName → ℚ :=
  splits.foldl
    (fun g' s =>
      match lookupAssoc bmap s.1 with
      | some dst_col => addAt g' dst_col (amt * s.2)
      | none => g') g

/-- The outer loop over `bucket_map.items()`: spread each non-zero
source bucket amount, starting from the all-zero map. -/
def spreadRow (bmap : List (ℕ × ColName)) (splits : List (ℕ × ℚ))
    (vals : ColName → ℚ) : ColName → ℚ :=
  bmap.foldl
    (fun g src => if vals src.2 = 0 then g else spreadSplits bmap (vals src.2) splits g)
    (fun _ => 0)

/-- A source/destination report row for the respreader: product type,
bucket column values (nulls already coalesced to 0), and the remaining
columns copied verbatim. -/
structure BehRow where
  v_prod_type : String
  bucketVals : ColName → ℚ
  static : List String

/-- Per-row processing: skip rows whose type has no (non-empty)
pattern, otherwise write the spread amounts rounded to two decimals. -/
def processRow (patterns : List (String × List (ℕ × ℚ)))
    (bmap : List (ℕ × ColName)) (row : BehRow) : Option BehRow :=
  match lookupPattern patterns row.v_prod_type with
  | none => none
  | some splits =>
    if splits.isEmpty then none
    else some { row with
      bucketVals := fun c => roundHU2 (spreadRow bmap splits row.bucketVals c) }

/-- `load_report_behavioural`: select source rows whose product type has
a pattern (`WHERE v_prod_type IN %s`) and respread each. -/
def load_report_behavioural (pats : List PatternRow)
    (bucket_cols : List ColName) (rows : List BehRow) : List BehRow :=
  (rows.filter
      (fun r => (buildPatterns pats).any (fun q => q.1 == r.v_prod_type))).filterMap
    (processRow (buildPatterns pats) (buildBucketMap bucket_cols))

/-- Sum of a value map over the table's bucket columns. -/
def sumOver (cols : List ColName) (g : ColName → ℚ) : ℚ := (cols.map g).sum

/-! ## Currency Consolidator

`report_contractual_cons_loader.load_report_contractual_cons` with
`_fx_map`. -/

/-- One `Stg_Exchange_Rate` row. -/
structure FXRow where
  fic_mis_date : Date
  v_from_ccy_code : String
  v_to_ccy_code : String
  n_exchange_rate : ℚ
  deriving DecidableEq, Repr

/-- Python `str.upper()` (over the character list). -/
def toUpperStr (s : String) : String := ⟨s.toList.map Char.toUpper⟩

/-- First row attaining the maximal `fic_mis_date`, starting from `a`:
the row `_fx_map` keeps after `order_by('-fic_mis_date')` (a stable
descending sort) and first-wins dict insertion. -/
def pickLatestFrom (a : FXRow) : List FXRow → FXRow
  | [] => a
  | r :: rest =>
    if ord a.fic_mis_date < ord r.fic_mis_date then pickLatestFrom r rest
    else pickLatestFrom a rest

def pickLatest : List FXRow → Option FXRow
  | [] => none
  | r :: rest => some (pickLatestFrom r rest)

/-- `_fx_map(as_of, to_ccy)` looked up at currency `c`: the most recent
rate with `fic_mis_date <= as_of` from `c` into `to_ccy.upper()`. -/
def fxLookup (fx : List FXRow) (asOf : Date) (toCcy : String) (c : String) :
    Option ℚ :=
  (pickLatest (fx.filter (fun r =>
      decide (r.v_to_ccy_code = toUpperStr toCcy)
        && decide (r.fic_mis_date.ordLE asOf)
        && decide (r.v_from_ccy_code = c)))).map
    (fun r => r.n_exchange_rate)

/-- A `Report_Contractual_<date>` row as the consolidator sees it:
currency, bucket columns, the adjustment column, and the remaining
columns copied verbatim (`r."col"`). -/
structure ConsRow where
  v_ccy_code : String
  buckets : List (Option ℚ)
  n_adjusted_cash_flow_amount : Option ℚ
  static : List String
  deriving DecidableEq, Repr

/-- `load_report_contractual_cons`: copy each row, multiplying every
bucket column and the adjustment column by `COALESCE(fx.fx_rate, 1)`
(the LEFT JOIN on `fx.from_ccy = r.v_ccy_code`) and rewriting the
currency column to the reporting currency. -/
def load_report_contractual_cons (fx : List FXRow) (asOf : Date)
    (reportingCcy : String) (rows : List ConsRow) : List ConsRow :=
  rows.map (fun r =>
    { v_ccy_code := toUpperStr reportingCcy,
      buckets := r.buckets.map (fun v =>
        v.map (fun x => x * (fxLookup fx asOf reportingCcy r.v_ccy_code).getD 1)),
      n_adjusted_cash_flow_amount := r.n_adjusted_cash_flow_amount.map
        (fun x => x * (fxLookup fx asOf reportingCcy r.v_ccy_code).getD 1),
      static := r.static })

/-! ## Aggregation step and its error handling

`cashflow_acc_aggr.calculate_time_buckets_and_spread`, wrapped in one
transaction (`@transaction.atomic`). -/

/-- One `Arranged_cashflows` row (the fields the aggregation reads). -/
structure CashflowRow where
  fic_mis_date : Date
  v_account_number : String
  v_prod_code : String
  v_ccy_code : String
  v_loan_type : String
  v_party_type_code : String
  d_cashflow_date : Date
  n_total_cash_flow_amount : ℚ
  n_total_principal_payment : ℚ
  n_total_interest_payment : ℚ
  record_count : ℕ
  deriving DecidableEq, Repr

/-- One `Aggregated_Acc_CashflowByBuckets` row. -/
structure AggRow where
  fic_mis_date : Date
  process_name : String
  v_account_number : String
  v_prod_code : String
  v_ccy_code : String
  v_loan_type : String
  v_party_type_code : String
  financial_element : String
  buckets : List ℚ
  deriving DecidableEq, Repr

/-- The database state the aggregation step reads and writes. -/
structure DBState where
  cashflows : List CashflowRow
  timeBuckets : List TimeBucketsRow
  timeBucketMaster : List TimeBucketMasterRow
  aggregates : List AggRow
  deriving DecidableEq, Repr

/-- The `fic_mis_date` argument: a date, an ISO string, or anything
else (which raises `TypeError`). -/
inductive DateInput where
  | str (s : String)
  | dateVal (d : Date)
  | other
  deriving DecidableEq, Repr

/-- Decimal digits to a natural number. -/
def digitsToNat (t : List Char) : ℕ :=
  t.foldl (fun n c => n * 10 + (c.toNat - 48)) 0

/-- `datetime.strptime(s, "%Y-%m-%d")`: three dash-separated digit
groups forming a calendar-valid date. -/
def parseIsoDate (s : String) : Option Date :=
  match s.toList.splitOn '-' with
  | [ys, ms, ds] =>
    if (!ys.isEmpty) && ys.all Char.isDigit && decide (ys.length ≤ 4)
        && (!ms.isEmpty) && ms.all Char.isDigit && decide (ms.length ≤ 2)
        && (!ds.isEmpty) && ds.all Char.isDigit && decide (ds.length ≤ 2) then
      if (⟨digitsToNat ys, digitsToNat ms, digitsToNat ds⟩ : Date).Valid then
        some ⟨digitsToNat ys, digitsToNat ms, digitsToNat ds⟩
      else none
    else none
  | _ => none

/-- Validation of the `fic_mis_date` argument (lines 60-63). -/
def parseFicMisDate : DateInput → Except String Date
  | .str s =>
    match parseIsoDate s with
    | some d => .ok d
    | none => .error "time data does not match format %Y-%m-%d"
  | .dateVal d => .ok d
  | .other => .error "fic_mis_date must be datetime.date or ISO-string"

/-- Reset then flag `record_count` for the snapshot's rows. -/
def flagCashflows (d : Date) (rows : List CashflowRow) : List CashflowRow :=
  (rows.map (fun r =>
      if r.fic_mis_date = d then { r with record_count := 0 } else r)).map
    (fun r => if r.fic_mis_date = d then { r with record_count := 1 } else r)

/-- `TimeBuckets.objects.all().order_by("serial_number")` (the
`filter(fic_mis_date=...)` attempt raises `FieldError` and falls back to
`all()`). -/
def sortBySerial (l : List TimeBucketsRow) : List TimeBucketsRow :=
  l.insertionSort (fun a b => a.serial_number ≤ b.serial_number)

def financial_elements : List String :=
  ["n_total_cash_flow_amount", "n_total_principal_payment", "n_total_interest_payment"]

def elementAmount (e : String) (r : CashflowRow) : ℚ :=
  if e = "n_total_cash_flow_amount" then r.n_total_cash_flow_amount
  else if e = "n_total_principal_payment" then r.n_total_principal_payment
  else r.n_total_interest_payment

/-- `bucket_1 .. bucket_50` on `Aggregated_Acc_CashflowByBuckets`. -/
def maxTargetBuckets : ℕ := 50

def aggKey (r : CashflowRow) : String × String × String × String × String :=
  (r.v_account_number, r.v_prod_code, r.v_ccy_code, r.v_loan_type, r.v_party_type_code)

/-- The three `INSERT ... SELECT ... GROUP BY` passes: one row per
(financial element, composite key) with per-bucket `SUM(CASE WHEN
d_cashflow_date BETWEEN start AND end ...)`. -/
def aggregateRows (d : Date) (process : String) (flagged : List CashflowRow)
    (ranges : List (Date × Date)) : List AggRow :=
  (financial_elements.map (fun e =>
    ((flagged.map aggKey).dedup).map (fun k =>
      ({ fic_mis_date := d, process_name := process,
         v_account_number := k.1, v_prod_code := k.2.1, v_ccy_code := k.2.2.1,
         v_loan_type := k.2.2.2.1, v_party_type_code := k.2.2.2.2,
         financial_element := e,
         buckets := (ranges.take (min ranges.length maxTargetBuckets)).map
           (fun se =>
             ((flagged.filter (fun r =>
                 decide (aggKey r = k) && decide (se.1.ordLE r.d_cashflow_date)
                   && decide (r.d_cashflow_date.ordLE se.2))).map
               (elementAmount e)).sum) } : AggRow)))).join

/-- `calculate_time_buckets_and_spread(fic_mis_date)`: validate the
date, flag the snapshot's cashflows, rebuild the bucket master from the
`TimeBuckets` configuration (failing fast on an empty configuration or
an unknown multiplier), then delete and rewrite the aggregates. -/
def calculate_time_buckets_and_spread (input : DateInput) (s : DBState) :
    Except String DBState :=
  match parseFicMisDate input with
  | .error e => .error e
  | .ok d =>
    let s1 : DBState := { s with cashflows := flagCashflows d s.cashflows }
    let tb_meta := sortBySerial s1.timeBuckets
    if tb_meta.isEmpty then .error "No rows in TimeBuckets; cannot bucketise."
    else
      match buildBucketRanges d tb_meta with
      | .error e => .error e
      | .ok ranges =>
        let s2 : DBState := { s1 with
          timeBucketMaster :=
            refreshTimebucketMaster "contractual" ranges d s1.timeBucketMaster }
        let s3 : DBState := { s2 with
          aggregates := s2.aggregates.filter (fun a =>
            !(decide (a.fic_mis_date = d ∧ a.process_name = "contractual"))) }
        .ok { s3 with
          aggregates := s3.aggregates
            ++ aggregateRows d "contractual"
                (s3.cashflows.filter (fun r =>
                  decide (r.fic_mis_date = d) && decide (r.record_count = 1)))
                ranges }

/-- `@transaction.atomic`: an exception rolls the whole step back, so
the visible state is the input state on error. -/
def commitAtomic (s : DBState) : Except String DBState → DBState
  | .ok s' => s'
  | .error _ => s

/-! ### Pipeline resume (functions_view/execute.py, execute_functions) -/

inductive StepStatus
  | Pending
  | Running
  | Success
  | Failed
  | Stopped
  | Skipped
  deriving DecidableEq

structure ExecRecord where
  process_name : String
  status : StepStatus
  deriving DecidableEq

/-- `TOTAL_PIPELINE_STEPS` from execute.py; `all_steps` lists the same
names in the same order, so `all_steps[continue_idx:]` is modelled as
`TOTAL_PIPELINE_STEPS.drop idx`. -/
def TOTAL_PIPELINE_STEPS : List String :=
  ["Process First Day Cashflows",
   "Process Credit Line Cashflows",
   "Process Loan Cashflows",
   "Balance Cashflows to Target",
   "Process Overdraft Cashflows",
   "Process Investment Cashflows",
   "Process First Day Cashflows (Re-run)",
   "Calculate Time Buckets and Spread",
   "Aggregate by Product Code",
   "Create Report Contractual Table",
   "Load Contractual Report",
   "Align Buckets to Balance",
   "Load Contractual Consolidated Report",
   "Load Behavioural Report",
   "Load Rate-Sensitive Report"]

/-- `execution_status_map = {exe.process_name: exe.status for exe in
existing_executions}`: a Python dict comprehension keeps the LAST
status seen for a name. -/
def statusMapGet (hist : List ExecRecord) (name : String) : Option StepStatus :=
  (hist.reverse.find? (fun q => q.process_name == name)).map (fun q => q.status)

/-- The `remaining_steps` membership test: no recorded status, or
Failed/Stopped, or the step is the requested continue point. -/
def stepIncluded (hist : List ExecRecord) (continueStep name : String) : Bool :=
  match statusMapGet hist name with
  | none => true
  | some st => decide (st = StepStatus.Failed) || decide (st = StepStatus.Stopped)
      || decide (name = continueStep)

def remainingSteps (hist : List ExecRecord) (continueStep : String) (idx : ℕ) :
    List String :=
  (TOTAL_PIPELINE_STEPS.drop idx).filter (stepIncluded hist continueStep)

/-- One iteration of the "ensure all steps exist in the history" loop:
a name absent from the status map gets a fresh Pending/Skipped record;
a present name that will be executed has its Failed/Stopped rows reset
to Pending in place. -/
def ensureStep (hist : List ExecRecord) (rem : List String)
    (h : List ExecRecord) (name : String) : List ExecRecord :=
  match statusMapGet hist name with
  | none =>
      h ++ [⟨name, if name ∈ rem then StepStatus.Pending else StepStatus.Skipped⟩]
  | some _ =>
      if name ∈ rem then
        h.map (fun q =>
          if q.process_name = name
              ∧ (q.status = StepStatus.Failed ∨ q.status = StepStatus.Stopped)
          then { q with status := StepStatus.Pending } else q)
      else h

def ensurePhase (hist : List ExecRecord) (rem : List String) : List ExecRecord :=
  TOTAL_PIPELINE_STEPS.foldl (ensureStep hist rem) hist

/-- Outcome of `pipeline._execute_step`, abstracted by an oracle. -/
def execResult (outcome : String → Bool) (name : String) : StepStatus :=
  if outcome name then StepStatus.Success else StepStatus.Failed

/-- `existing_execution.save()`: the first row for the name is updated
in place. -/
def updateFirst : List ExecRecord → String → StepStatus → List ExecRecord
  | [], _, _ => []
  | q :: rest, name, st =>
    if q.process_name = name then { q with status := st } :: rest
    else q :: updateFirst rest name st

/-- The execution loop over the remaining steps: a step whose first
history row is already Success is skipped (`continue`); otherwise the
row is updated (or created) with the step's result, and a Failed result
breaks the loop. Returns the final history and the executed names. -/
def execLoopGo (outcome : String → Bool) :
    List String → List ExecRecord → List String → Bool →
      List ExecRecord × List String
  | [], h, execed, _ => (h, execed)
  | name :: rest, h, execed, stopped =>
    if stopped then (h, execed)
    else
      match h.find? (fun q => q.process_name == name) with
      | some q =>
        if q.status = StepStatus.Success then
          execLoopGo outcome rest h execed false
        else
          execLoopGo outcome rest (updateFirst h name (execResult outcome name))
            (execed ++ [name]) (decide (execResult outcome name = StepStatus.Failed))
      | none =>
        execLoopGo outcome rest (h ++ [⟨name, execResult outcome name⟩])
          (execed ++ [name]) (decide (execResult outcome name = StepStatus.Failed))

/-- `execute_functions` with `continue_from_step` set: compute the
continuation index (400 error is `none`), the remaining steps, run the
ensure phase, then the execution loop. -/
def continueRun (outcome : String → Bool) (hist : List ExecRecord)
    (continueStep : String) : Option (List ExecRecord × List String) :=
  match TOTAL_PIPELINE_STEPS.findIdx? (fun s => s == continueStep) with
  | none => none
  | some idx =>
      some (execLoopGo outcome (remainingSteps hist continueStep idx)
        (ensurePhase hist (remainingSteps hist continueStep idx)) [] false)

/-- All history rows carrying a given process name. -/
def recsFor (h : List ExecRecord) (name : String) : List ExecRecord :=
  h.filter (fun q => q.process_name == name)

theorem daysInMonth_pos (y m : ℕ) : 1 ≤ daysInMonth y m := by
  rcases m with _ | _ | _ | _ | _ | _ | _ | _ | _ | _ | _ | _ | m
  all_goals simp only [daysInMonth]
  all_goals try split
  all_goals norm_num

theorem daysInMonth_le (y m : ℕ) : daysInMonth y m ≤ 31 := by
  rcases m with _ | _ | _ | _ | _ | _ | _ | _ | _ | _ | _ | _ | m
  all_goals simp only [daysInMonth]
  all_goals try split
  all_goals norm_num

theorem daysBeforeMonthIdx_mono {s t : ℕ} (h : s ≤ t) :
    daysBeforeMonthIdx s ≤ daysBeforeMonthIdx t := by
  induction t with
  | zero => simp_all
  | succ t ih =>
    rcases Nat.lt_or_ge s (t + 1) with h' | h'
    · exact le_trans (ih (Nat.lt_succ_iff.mp h')) (Nat.le_add_right _ _)
    · have : s = t + 1 := le_antisymm h h'
      simp [this]

theorem daysBeforeMonthIdx_succ (t : ℕ) :
    daysBeforeMonthIdx (t + 1) = daysBeforeMonthIdx t + daysInMonth (t / 12) (t % 12 + 1) :=
  rfl

/-- Month index of a valid date recovers year and month. -/
theorem monthIdx_div (y m : ℕ) (h1 : 1 ≤ m) (h2 : m ≤ 12) :
    (12 * y + (m - 1)) / 12 = y ∧ (12 * y + (m - 1)) % 12 + 1 = m := by
  omega

theorem ord_succDay {d : Date} (h : d.Valid) : ord (succDay d) = ord d + 1 := by
  obtain ⟨h1, h2, h3, h4⟩ := h
  obtain ⟨hdiv, hmod⟩ := monthIdx_div d.year d.month h1 h2
  have hstep : daysBeforeMonthIdx (12 * d.year + (d.month - 1) + 1)
      = daysBeforeMonthIdx (12 * d.year + (d.month - 1)) + daysInMonth d.year d.month := by
    rw [daysBeforeMonthIdx_succ, hdiv, hmod]
  unfold succDay
  split
  · simp only [ord]
    omega
  · split
    · rename_i hlt hm
      simp only [ord]
      have hidx : 12 * d.year + (d.month + 1 - 1) = 12 * d.year + (d.month - 1) + 1 := by
        omega
      rw [hidx, hstep]
      omega
    · rename_i hlt hm
      simp only [ord]
      have hidx : 12 * (d.year + 1) + (1 - 1) = 12 * d.year + (d.month - 1) + 1 := by
        omega
      rw [hidx, hstep]
      omega

theorem valid_mk {y m day : ℕ} (h1 : 1 ≤ m) (h2 : m ≤ 12) (h3 : 1 ≤ day)
    (h4 : day ≤ daysInMonth y m) : Date.Valid ⟨y, m, day⟩ :=
  ⟨h1, h2, h3, h4⟩

theorem valid_succDay {d : Date} (h : d.Valid) : (succDay d).Valid := by
  obtain ⟨h1, h2, h3, h4⟩ := h
  unfold succDay
  split
  · rename_i h'
    exact valid_mk h1 h2 (by omega) h'
  · split
    · rename_i h' h''
      exact valid_mk (by omega) (by omega) (le_refl 1) (daysInMonth_pos _ _)
    · exact valid_mk (le_refl 1) (by norm_num) (le_refl 1) (daysInMonth_pos _ _)

theorem ord_iterate_succDay {d : Date} (h : d.Valid) (n : ℕ) :
    ord (succDay^[n] d) = ord d + n ∧ (succDay^[n] d).Valid := by
  induction n with
  | zero => simpa using h
  | succ n ih =>
    rw [Function.iterate_succ_apply']
    exact ⟨by rw [ord_succDay ih.2, ih.1]; ring, valid_succDay ih.2⟩

theorem ord_addDays {d : Date} (h : d.Valid) {n : ℤ} (hn : 0 ≤ n) :
    ord (addDays d n) = ord d + n.toNat ∧ (addDays d n).Valid := by
  unfold addDays
  rw [if_pos hn]
  exact ord_iterate_succDay h n.toNat

theorem valid_ofMonthIdx (t : ℕ) {day : ℕ} (h : 1 ≤ day) : (ofMonthIdx t day).Valid := by
  unfold ofMonthIdx
  refine valid_mk (by omega) (by omega) ?_ (min_le_right _ _)
  have := daysInMonth_pos (t / 12) (t % 12 + 1)
  omega

theorem valid_addMonths (d : Date) (k : ℤ) (h : d.Valid) : (addMonths d k).Valid :=
  valid_ofMonthIdx _ h.2.2.1

theorem ord_mk (y m day : ℕ) :
    ord ⟨y, m, day⟩ = daysBeforeMonthIdx (12 * y + (m - 1)) + day :=
  rfl

theorem ord_ofMonthIdx (t day : ℕ) :
    ord (ofMonthIdx t day)
      = daysBeforeMonthIdx t + min day (daysInMonth (t / 12) (t % 12 + 1)) := by
  show daysBeforeMonthIdx (12 * (t / 12) + (t % 12 + 1 - 1))
      + min day (daysInMonth (t / 12) (t % 12 + 1)) = _
  have h12 : 12 * (t / 12) + (t % 12 + 1 - 1) = t := by omega
  rw [h12]

/-- Adding zero months to a valid date is the identity. -/
theorem addMonths_zero {d : Date} (h : d.Valid) : addMonths d 0 = d := by
  obtain ⟨h1, h2, h3, h4⟩ := h
  obtain ⟨hdiv, hmod⟩ := monthIdx_div d.year d.month h1 h2
  have ht : ((12 * d.year + (d.month - 1) : ℤ) + 0).toNat = 12 * d.year + (d.month - 1) := by
    omega
  unfold addMonths ofMonthIdx
  rw [ht, hdiv, hmod, min_eq_left h4]

/-- Adding a positive number of months strictly advances the day number. -/
theorem ord_addMonths_lt {d : Date} (h : d.Valid) {k : ℤ} (hk : 1 ≤ k) :
    ord d < ord (addMonths d k) := by
  obtain ⟨h1, h2, h3, h4⟩ := h
  obtain ⟨hdiv, hmod⟩ := monthIdx_div d.year d.month h1 h2
  unfold addMonths
  rw [ord_ofMonthIdx]
  have htt : 12 * d.year + (d.month - 1) + 1
      ≤ ((12 * d.year + (d.month - 1) : ℤ) + k).toNat := by omega
  have hstep := daysBeforeMonthIdx_succ (12 * d.year + (d.month - 1))
  rw [hdiv, hmod] at hstep
  have hmono := daysBeforeMonthIdx_mono htt
  have hday : 1 ≤ min d.day
      (daysInMonth ((((12 * d.year + (d.month - 1) : ℤ) + k).toNat) / 12)
        ((((12 * d.year + (d.month - 1) : ℤ) + k).toNat) % 12 + 1)) :=
    le_min h3 (daysInMonth_pos _ _)
  unfold ord
  omega

theorem valid_addYears (d : Date) (k : ℤ) (h : d.Valid) : (addYears d k).Valid := by
  obtain ⟨h1, h2, h3, h4⟩ := h
  unfold addYears
  refine valid_mk h1 h2 ?_ (min_le_right _ _)
  have := daysInMonth_pos (((d.year : ℤ) + k).toNat) d.month
  omega

/-- `relativedelta(years=k)` agrees with adding `12*k` months. -/
theorem addYears_eq_addMonths {d : Date} (h : d.Valid) {k : ℤ} (hk : 0 ≤ k) :
    addYears d k = addMonths d (12 * k) := by
  obtain ⟨h1, h2, h3, h4⟩ := h
  have ht : ((12 * d.year + (d.month - 1) : ℤ) + 12 * k).toNat
      = 12 * ((d.year : ℤ) + k).toNat + (d.month - 1) := by omega
  obtain ⟨hdiv, hmod⟩ := monthIdx_div (((d.year : ℤ) + k).toNat) d.month h1 h2
  unfold addYears addMonths ofMonthIdx
  rw [ht, hdiv, hmod]

theorem ord_addYears_lt {d : Date} (h : d.Valid) {k : ℤ} (hk : 1 ≤ k) :
    ord d < ord (addYears d k) := by
  rw [addYears_eq_addMonths h (by omega)]
  exact ord_addMonths_lt h (by omega)

theorem roundHU2_of_twoDp {x : ℚ} (h : TwoDp x) : roundHU2 x = x := by
  obtain ⟨n, rfl⟩ := h
  have hfl : ∀ m : ℤ, ⌊(m : ℚ) + 1 / 2⌋ = m := by
    intro m
    rw [Int.floor_int_add]
    norm_num
  have h100 : ((n : ℚ) / 100) * 100 = (n : ℚ) := by field_simp
  have h100n : (-((n : ℚ) / 100)) * 100 = ((-n : ℤ) : ℚ) := by push_cast; field_simp
  unfold roundHU2
  split
  · rw [h100, hfl n]
  · rw [h100n, hfl (-n)]
    push_cast
    ring

theorem abs_roundHU2_sub_le (x : ℚ) : |roundHU2 x - x| ≤ 1 / 200 := by
  unfold roundHU2
  have key : ∀ y : ℚ, 0 ≤ y → |(⌊y * 100 + 1 / 2⌋ : ℚ) / 100 - y| ≤ 1 / 200 := by
    intro y hy
    have h1 : (⌊y * 100 + 1 / 2⌋ : ℚ) ≤ y * 100 + 1 / 2 := Int.floor_le _
    have h2 : y * 100 + 1 / 2 - 1 < (⌊y * 100 + 1 / 2⌋ : ℚ) := Int.sub_one_lt_floor _
    rw [abs_le]
    constructor <;> nlinarith
  split
  · exact key x (by assumption)
  · rename_i hx
    have := key (-x) (by linarith [not_le.mp hx])
    calc |-((⌊-x * 100 + 1 / 2⌋ : ℚ) / 100) - x|
        = |(⌊-x * 100 + 1 / 2⌋ : ℚ) / 100 - -x| := by rw [← abs_neg]; ring_nf
      _ ≤ 1 / 200 := this

/-! ## Bucket generator lemmas -/

theorem addDays_one (d : Date) : addDays d 1 = succDay d := by
  unfold addDays
  rw [if_pos (by norm_num : (0 : ℤ) ≤ 1)]
  rfl

theorem ord_le_addMonths {d : Date} (h : d.Valid) {k : ℤ} (hk : 0 ≤ k) :
    ord d ≤ ord (addMonths d k) := by
  rcases eq_or_lt_of_le hk with h0 | h1
  · rw [← h0, addMonths_zero h]
  · exact le_of_lt (ord_addMonths_lt h (by omega))

theorem addYears_zero {d : Date} (h : d.Valid) : addYears d 0 = d := by
  rw [addYears_eq_addMonths h (le_refl 0)]
  simpa using addMonths_zero h

theorem ord_le_addYears {d : Date} (h : d.Valid) {k : ℤ} (hk : 0 ≤ k) :
    ord d ≤ ord (addYears d k) := by
  rcases eq_or_lt_of_le hk with h0 | h1
  · rw [← h0, addYears_zero h]
  · exact le_of_lt (ord_addYears_lt h (by omega))

/-- A well-formed configuration row: non-negative frequency, known unit. -/
def GoodTB (tb : TimeBucketsRow) : Prop :=
  0 ≤ tb.frequency ∧
    (tb.multiplier = "Days" ∨ tb.multiplier = "Months" ∨ tb.multiplier = "Years")

instance (tb : TimeBucketsRow) : Decidable (GoodTB tb) := by
  unfold GoodTB; infer_instance

theorem buildBucketRangesAux_chain {rows : List TimeBucketsRow} :
    ∀ {start : Date}, start.Valid → (∀ tb ∈ rows, GoodTB tb) →
    ∃ rs, buildBucketRangesAux start rows = .ok rs ∧ rs.length = rows.length ∧
      RangesChain start rs := by
  induction rows with
  | nil => exact fun _ _ => ⟨[], rfl, rfl, trivial⟩
  | cons tb rest ih =>
    intro start hs hall
    obtain ⟨hf, hm⟩ := hall tb (by simp)
    have hrest : ∀ x ∈ rest, GoodTB x := fun x hx => hall x (by simp [hx])
    rcases hm with hm | hm | hm
    · have hev : (addDays start tb.frequency).Valid := (ord_addDays hs hf).2
      have hole : ord start ≤ ord (addDays start tb.frequency) := by
        rw [(ord_addDays hs hf).1]; omega
      obtain ⟨rs, hok, hlen, hchain⟩ := ih (valid_succDay hev) hrest
      refine ⟨(start, addDays start tb.frequency) :: rs, ?_, by simp [hlen], ?_⟩
      · unfold buildBucketRangesAux
        rw [if_pos hm, addDays_one, hok]
        rfl
      · exact ⟨rfl, hev, hole, hchain⟩
    · have hev : (addMonths start tb.frequency).Valid := valid_addMonths _ _ hs
      have hole : ord start ≤ ord (addMonths start tb.frequency) := ord_le_addMonths hs hf
      obtain ⟨rs, hok, hlen, hchain⟩ := ih (valid_succDay hev) hrest
      refine ⟨(start, addMonths start tb.frequency) :: rs, ?_, by simp [hlen], ?_⟩
      · unfold buildBucketRangesAux
        rw [if_neg (by rw [hm]; decide), if_pos hm, addDays_one, hok]
        rfl
      · exact ⟨rfl, hev, hole, hchain⟩
    · have hev : (addYears start tb.frequency).Valid := valid_addYears _ _ hs
      have hole : ord start ≤ ord (addYears start tb.frequency) := ord_le_addYears hs hf
      obtain ⟨rs, hok, hlen, hchain⟩ := ih (valid_succDay hev) hrest
      refine ⟨(start, addYears start tb.frequency) :: rs, ?_, by simp [hlen], ?_⟩
      · unfold buildBucketRangesAux
        rw [if_neg (by rw [hm]; decide), if_neg (by rw [hm]; decide), if_pos hm,
          addDays_one, hok]
        rfl
      · exact ⟨rfl, hev, hole, hchain⟩

theorem rangesChain_get {rs : List (Date × Date)} :
    ∀ {start : Date}, start.Valid → RangesChain start rs →
    ∀ i (h : i < rs.length),
      (rs.get ⟨i, h⟩).1.Valid ∧ (rs.get ⟨i, h⟩).2.Valid ∧
        ord (rs.get ⟨i, h⟩).1 ≤ ord (rs.get ⟨i, h⟩).2 := by
  induction rs with
  | nil => intro _ _ _ i h; exact absurd h (by simp)
  | cons x rest ih =>
    intro start hs hchain i h
    obtain ⟨hx1, hx2, hx3, htail⟩ :
        x.1 = start ∧ x.2.Valid ∧ ord x.1 ≤ ord x.2 ∧ RangesChain (succDay x.2) rest := by
      obtain ⟨a, b⟩ := x
      exact hchain
    cases i with
    | zero => exact ⟨hx1 ▸ hs, hx2, hx3⟩
    | succ i => exact ih (valid_succDay hx2) htail i (by simpa using h)

theorem rangesChain_contiguous {rs : List (Date × Date)} :
    ∀ {start : Date}, RangesChain start rs →
    ∀ i (h : i + 1 < rs.length),
      (rs.get ⟨i + 1, h⟩).1 = succDay (rs.get ⟨i, by omega⟩).2 := by
  induction rs with
  | nil => intro _ _ i h; exact absurd h (by simp)
  | cons x rest ih =>
    intro start hchain i h
    obtain ⟨hx1, hx2, hx3, htail⟩ :
        x.1 = start ∧ x.2.Valid ∧ ord x.1 ≤ ord x.2 ∧ RangesChain (succDay x.2) rest := by
      obtain ⟨a, b⟩ := x
      exact hchain
    cases i with
    | zero =>
      cases rest with
      | nil => exact absurd h (by simp)
      | cons y t =>
        obtain ⟨hy1, _, _, _⟩ :
            y.1 = succDay x.2 ∧ y.2.Valid ∧ ord y.1 ≤ ord y.2 ∧ RangesChain (succDay y.2) t := by
          obtain ⟨a, b⟩ := y
          exact htail
        exact hy1
    | succ i => exact ih htail i (by simpa using h)

theorem rangesChain_start_le {rs : List (Date × Date)} :
    ∀ {start : Date}, start.Valid → RangesChain start rs →
    ∀ j (h : j < rs.length), ord start ≤ ord (rs.get ⟨j, h⟩).1 := by
  induction rs with
  | nil => intro _ _ _ j h; exact absurd h (by simp)
  | cons x rest ih =>
    intro start hs hchain j h
    obtain ⟨hx1, hx2, hx3, htail⟩ :
        x.1 = start ∧ x.2.Valid ∧ ord x.1 ≤ ord x.2 ∧ RangesChain (succDay x.2) rest := by
      obtain ⟨a, b⟩ := x
      exact hchain
    cases j with
    | zero => simp [hx1]
    | succ j =>
      have h1 := ih (valid_succDay hx2) htail j (by simpa using h)
      have h2 : ord (succDay x.2) = ord x.2 + 1 := ord_succDay hx2
      have h3 : ord start ≤ ord x.2 := hx1 ▸ hx3
      calc ord start ≤ ord x.2 + 1 := by omega
        _ = ord (succDay x.2) := h2.symm
        _ ≤ _ := h1

theorem rangesChain_disjoint {rs : List (Date × Date)} :
    ∀ {start : Date}, start.Valid → RangesChain start rs →
    ∀ i j (hi : i < rs.length) (hj : j < rs.length), i < j →
      ord (rs.get ⟨i, hi⟩).2 < ord (rs.get ⟨j, hj⟩).1 := by
  induction rs with
  | nil => intro _ _ _ i j hi _ _; exact absurd hi (by simp)
  | cons x rest ih =>
    intro start hs hchain i j hi hj hij
    obtain ⟨hx1, hx2, hx3, htail⟩ :
        x.1 = start ∧ x.2.Valid ∧ ord x.1 ≤ ord x.2 ∧ RangesChain (succDay x.2) rest := by
      obtain ⟨a, b⟩ := x
      exact hchain
    cases i with
    | zero =>
      cases j with
      | zero => omega
      | succ j =>
        have h1 := rangesChain_start_le (valid_succDay hx2) htail j (by simpa using hj)
        have h2 : ord (succDay x.2) = ord x.2 + 1 := ord_succDay hx2
        show ord x.2 < ord (rest.get ⟨j, _⟩).1
        omega
    | succ i =>
      cases j with
      | zero => omega
      | succ j =>
        exact ih (valid_succDay hx2) htail i j (by simpa using hi) (by simpa using hj)
          (by omega)

theorem filter_refreshTimebucketMaster (process : String) (ranges : List (Date × Date))
    (d : Date) (rows : List TimeBucketMasterRow) :
    (refreshTimebucketMaster process ranges d rows).filter
        (fun r => decide (r.process_name = process ∧ r.fic_mis_date = some d))
      = masterRowsFor process d ranges := by
  unfold refreshTimebucketMaster
  rw [List.filter_append]
  have h1 : (rows.filter
      (fun r => !(decide (r.process_name = process ∧ r.fic_mis_date = some d)))).filter
        (fun r => decide (r.process_name = process ∧ r.fic_mis_date = some d)) = [] := by
    rw [List.filter_eq_nil_iff]
    intro a ha
    have := List.of_mem_filter ha
    simp_all
    tauto
  have h2 : (masterRowsFor process d ranges).filter
      (fun r => decide (r.process_name = process ∧ r.fic_mis_date = some d))
        = masterRowsFor process d ranges := by
    rw [List.filter_eq_self]
    intro a ha
    unfold masterRowsFor at ha
    obtain ⟨ie, _, rfl⟩ := List.mem_map.mp ha
    simp
  rw [h1, h2]
  rfl

theorem masterRowsFor_numbers (process : String) (d : Date)
    (ranges : List (Date × Date)) :
    (masterRowsFor process d ranges).map (fun r => r.bucket_number)
      = (List.range ranges.length).map (· + 1) := by
  unfold masterRowsFor
  rw [List.map_map]
  rw [show ((fun r : TimeBucketMasterRow => r.bucket_number)
      ∘ fun ie : ℕ × (Date × Date) =>
        (⟨process, ie.1 + 1, ie.2.1, ie.2.2, some d⟩ : TimeBucketMasterRow))
    = (fun x => x + 1) ∘ Prod.fst from rfl]
  rw [← List.map_map, List.enum_map_fst]

theorem masterRowsFor_ranges (process : String) (d : Date)
    (ranges : List (Date × Date)) :
    (masterRowsFor process d ranges).map (fun r => (r.start_date, r.end_date))
      = ranges := by
  unfold masterRowsFor
  rw [List.map_map]
  rw [show ((fun r : TimeBucketMasterRow => (r.start_date, r.end_date))
      ∘ fun ie : ℕ × (Date × Date) =>
        (⟨process, ie.1 + 1, ie.2.1, ie.2.2, some d⟩ : TimeBucketMasterRow))
    = Prod.snd from rfl]
  exact List.enum_map_snd ranges

/-- C3 counterexample: the frequency column is an unvalidated
IntegerField, and for the accepted definitions
[+10 Days, -8 Days, +1 Days] anchored at 04-30 of year 1 the generated
ranges are neither ordered nor non-overlapping: bucket 2 is inverted
(its end 05-03 precedes its start 05-11) and bucket 3 (05-04..05-05)
lies entirely inside bucket 1 (04-30..05-10), so a cashflow dated 05-04
falls in two buckets. -/
theorem claimC3_counterexample :
    buildBucketRanges ⟨1, 4, 30⟩
        [⟨1, 10, "Days"⟩, ⟨2, -8, "Days"⟩, ⟨3, 1, "Days"⟩]
      = .ok [(⟨1, 4, 30⟩, ⟨1, 5, 10⟩), (⟨1, 5, 11⟩, ⟨1, 5, 3⟩),
             (⟨1, 5, 4⟩, ⟨1, 5, 5⟩)] ∧
    ¬ Date.ordLE ⟨1, 5, 11⟩ ⟨1, 5, 3⟩ ∧
    Date.ordLE ⟨1, 4, 30⟩ ⟨1, 5, 4⟩ ∧
    Date.ordLE ⟨1, 5, 5⟩ ⟨1, 5, 10⟩ := by
  refine ⟨rfl, by decide, by decide, by decide⟩

/-- C3 (amended): for every non-empty ordered list of well-formed bucket
definitions (non-negative frequency, unit one of Days, Months, Years) and
every valid anchor date, the generated bucket ranges are ordered,
contiguous and non-overlapping: the first range starts at the anchor
date, each subsequent range starts the day after the previous one ends,
every range ends no earlier than it starts, earlier ranges lie strictly
before later ones, and the rows persisted to the bucket master for the
(process, snapshot date) carry dense 1-based bucket numbers matching the
generated sequence.  Without the non-negative-frequency proviso the
invariant fails, as the counterexample shows. -/
theorem claimC3_bucket_contiguity (anchor : Date) (tbRows : List TimeBucketsRow)
    (hne : tbRows ≠ []) (hgood : ∀ tb ∈ tbRows, GoodTB tb) (hv : anchor.Valid) :
    ∃ rs, buildBucketRanges anchor tbRows = .ok rs ∧
      rs.length = tbRows.length ∧
      (∀ h0 : 0 < rs.length, (rs.get ⟨0, h0⟩).1 = anchor) ∧
      (∀ i (h : i + 1 < rs.length),
        (rs.get ⟨i + 1, h⟩).1 = succDay (rs.get ⟨i, by omega⟩).2) ∧
      (∀ i (h : i < rs.length), ord (rs.get ⟨i, h⟩).1 ≤ ord (rs.get ⟨i, h⟩).2) ∧
      (∀ i j (hi : i < rs.length) (hj : j < rs.length), i < j →
        ord (rs.get ⟨i, hi⟩).2 < ord (rs.get ⟨j, hj⟩).1) ∧
      ∀ process rows,
        (refreshTimebucketMaster process rs anchor rows).filter
            (fun r => decide (r.process_name = process ∧ r.fic_mis_date = some anchor))
          = masterRowsFor process anchor rs ∧
        (masterRowsFor process anchor rs).map (fun r => r.bucket_number)
          = (List.range rs.length).map (· + 1) ∧
        (masterRowsFor process anchor rs).map (fun r => (r.start_date, r.end_date)) = rs := by
  obtain ⟨rs, hok, hlen, hchain⟩ := buildBucketRangesAux_chain hv hgood
  refine ⟨rs, hok, hlen, ?_, ?_, ?_, ?_, ?_⟩
  · intro h0
    cases rs with
    | nil => exact absurd h0 (by simp)
    | cons x rest =>
      obtain ⟨a, b⟩ := x
      exact hchain.1
  · intro i h
    exact rangesChain_contiguous hchain i h
  · intro i h
    exact (rangesChain_get hv hchain i h).2.2
  · intro i j hi hj hij
    exact rangesChain_disjoint hv hchain i j hi hj hij
  · intro process rows
    exact ⟨filter_refreshTimebucketMaster process rs anchor rows,
      masterRowsFor_numbers process anchor rs, masterRowsFor_ranges process anchor rs⟩

/-- C3 witness: the theorem applies to the concrete 2025-04-30
configuration (7 Days, 1 Month, 5 Years). -/
theorem claimC3_witness :
    (([⟨1, 7, "Days"⟩, ⟨2, 1, "Months"⟩, ⟨3, 5, "Years"⟩] : List TimeBucketsRow) ≠ []) ∧
    (∀ tb ∈ ([⟨1, 7, "Days"⟩, ⟨2, 1, "Months"⟩, ⟨3, 5, "Years"⟩] : List TimeBucketsRow),
      GoodTB tb) ∧
    Date.Valid ⟨2025, 4, 30⟩ ∧
    ∃ rs, buildBucketRanges ⟨2025, 4, 30⟩
        [⟨1, 7, "Days"⟩, ⟨2, 1, "Months"⟩, ⟨3, 5, "Years"⟩] = .ok rs :=
  ⟨by decide, by decide, by decide, by
    obtain ⟨rs, hok, -⟩ := claimC3_bucket_contiguity ⟨2025, 4, 30⟩
      [⟨1, 7, "Days"⟩, ⟨2, 1, "Months"⟩, ⟨3, 5, "Years"⟩]
      (by decide) (by decide) (by decide)
    exact ⟨rs, hok⟩⟩

/-- C4 counterexample: on anchor 2025-04-30 with definitions
(7 Days), (1 Month), (5 Years), the generator does not yield the ranges
claimed by the spec scenario: `relativedelta` gives the second range end
2025-06-08, not 2025-06-07. -/
theorem claimC4_counterexample :
    buildBucketRanges ⟨2025, 4, 30⟩ [⟨1, 7, "Days"⟩, ⟨2, 1, "Months"⟩, ⟨3, 5, "Years"⟩]
      ≠ .ok [(⟨2025, 4, 30⟩, ⟨2025, 5, 7⟩), (⟨2025, 5, 8⟩, ⟨2025, 6, 7⟩),
        (⟨2025, 6, 8⟩, ⟨2030, 6, 7⟩)] := by
  intro h
  rw [show buildBucketRanges ⟨2025, 4, 30⟩
      [⟨1, 7, "Days"⟩, ⟨2, 1, "Months"⟩, ⟨3, 5, "Years"⟩]
    = .ok [(⟨2025, 4, 30⟩, ⟨2025, 5, 7⟩), (⟨2025, 5, 8⟩, ⟨2025, 6, 8⟩),
        (⟨2025, 6, 9⟩, ⟨2030, 6, 9⟩)] from rfl] at h
  exact absurd (Except.ok.inj h) (by decide)

/-- C4 (amended): on anchor 2025-04-30 the definitions (7 Days),
(1 Month), (5 Years) yield exactly the ranges
[2025-04-30..2025-05-07], [2025-05-08..2025-06-08],
[2025-06-09..2030-06-09]. -/
theorem claimC4_bucket_scenario :
    buildBucketRanges ⟨2025, 4, 30⟩ [⟨1, 7, "Days"⟩, ⟨2, 1, "Months"⟩, ⟨3, 5, "Years"⟩]
      = .ok [(⟨2025, 4, 30⟩, ⟨2025, 5, 7⟩), (⟨2025, 5, 8⟩, ⟨2025, 6, 8⟩),
        (⟨2025, 6, 9⟩, ⟨2030, 6, 9⟩)] :=
  rfl

/-! ## Reconciler lemmas -/

theorem twoDp_add {x y : ℚ} (hx : TwoDp x) (hy : TwoDp y) : TwoDp (x + y) := by
  obtain ⟨n, rfl⟩ := hx
  obtain ⟨m, rfl⟩ := hy
  exact ⟨n + m, by push_cast; ring⟩

theorem twoDp_sub {x y : ℚ} (hx : TwoDp x) (hy : TwoDp y) : TwoDp (x - y) := by
  obtain ⟨n, rfl⟩ := hx
  obtain ⟨m, rfl⟩ := hy
  exact ⟨n - m, by push_cast; ring⟩

theorem twoDp_sum {l : List ℚ} (h : ∀ v ∈ l, TwoDp v) : TwoDp (sumList l) := by
  induction l with
  | nil => exact ⟨0, by simp [sumList]⟩
  | cons x rest ih =>
    have hx := h x (by simp)
    have hrest := ih (fun v hv => h v (by simp [hv]))
    have : sumList (x :: rest) = x + sumList rest := by simp [sumList]
    rw [this]
    exact twoDp_add hx hrest

theorem twoDp_roundHU2 (x : ℚ) : TwoDp (roundHU2 x) := by
  unfold roundHU2
  split
  · exact ⟨⌊x * 100 + 1 / 2⌋, rfl⟩
  · exact ⟨-⌊-x * 100 + 1 / 2⌋, by push_cast; ring⟩

theorem map_roundHU2_eq_self {l : List ℚ} (h : ∀ v ∈ l, TwoDp v) :
    l.map roundHU2 = l := by
  induction l with
  | nil => rfl
  | cons x rest ih =>
    rw [List.map_cons, roundHU2_of_twoDp (h x (by simp)),
      ih (fun v hv => h v (by simp [hv]))]

theorem sumList_cons (x : ℚ) (l : List ℚ) : sumList (x :: l) = x + sumList l := by
  simp [sumList]

theorem sumList_set (l : List ℚ) (k : ℕ) (x : ℚ) (h : k < l.length) :
    sumList (l.set k x) = sumList l + x - l.getD k 0 := by
  unfold sumList
  rw [List.sum_set']
  rw [dif_pos h, List.getD_eq_getElem l 0 h]
  ring

theorem set_get_self (l : List ℚ) (k : ℕ) (h : k < l.length) :
    l.set k (l.get ⟨k, h⟩) = l := by
  induction l generalizing k with
  | nil => simp at h
  | cons a rest ih =>
    cases k with
    | zero => rfl
    | succ k =>
      have := ih k (by simpa using h)
      simp only [List.set, List.get]
      rw [this]

theorem pickArgmaxFrom_spec (l : List (ℕ × ℚ)) :
    ∀ a : ℕ × ℚ, (pickArgmaxFrom a l = a ∨ pickArgmaxFrom a l ∈ l) ∧
      a.2 ≤ (pickArgmaxFrom a l).2 ∧ ∀ iv ∈ l, iv.2 ≤ (pickArgmaxFrom a l).2 := by
  induction l with
  | nil => exact fun a => ⟨Or.inl rfl, le_refl _, by simp⟩
  | cons x rest ih =>
    intro a
    unfold pickArgmaxFrom
    split
    · rename_i hlt
      obtain ⟨hmem, hle, hall⟩ := ih x
      refine ⟨?_, le_trans (le_of_lt hlt) hle, ?_⟩
      · rcases hmem with h | h
        · exact Or.inr (by simp [h])
        · exact Or.inr (by simp [h])
      · intro iv hiv
        rcases List.mem_cons.mp hiv with h | h
        · rw [h]; exact hle
        · exact hall iv h
    · rename_i hnlt
      obtain ⟨hmem, hle, hall⟩ := ih a
      refine ⟨?_, hle, ?_⟩
      · rcases hmem with h | h
        · exact Or.inl h
        · exact Or.inr (by simp [h])
      · intro iv hiv
        rcases List.mem_cons.mp hiv with h | h
        · rw [h]; exact le_trans (not_lt.mp hnlt) hle
        · exact hall iv h

theorem pickArgmax_spec {l : List (ℕ × ℚ)} (h : l ≠ []) :
    ∃ jv, pickArgmax l = some jv ∧ jv ∈ l ∧ ∀ iv ∈ l, iv.2 ≤ jv.2 := by
  cases l with
  | nil => exact absurd rfl h
  | cons x rest =>
    obtain ⟨hmem, hle, hall⟩ := pickArgmaxFrom_spec rest x
    refine ⟨pickArgmaxFrom x rest, rfl, ?_, ?_⟩
    · rcases hmem with h | h
      · simp [h]
      · simp [h]
    · intro iv hiv
      rcases List.mem_cons.mp hiv with h | h
      · rw [h]; exact hle
      · exact hall iv h

/-- Unpack membership in the candidate lists back to an enum entry. -/
theorem mem_sameSignCandidates {diff : ℚ} {vals : List ℚ} {jv : ℕ × ℚ}
    (h : jv ∈ sameSignCandidates diff vals) :
    ∃ iv ∈ vals.enum, SignMatch diff iv.2 ∧ jv = (iv.1, |iv.2|) := by
  unfold sameSignCandidates at h
  obtain ⟨iv, hiv, rfl⟩ := List.mem_map.mp h
  obtain ⟨hmem, hsm⟩ := List.mem_filter.mp hiv
  exact ⟨iv, hmem, by simpa using hsm, rfl⟩

theorem enum_getD {vals : List ℚ} {iv : ℕ × ℚ} (h : iv ∈ vals.enum) :
    iv.1 < vals.length ∧ vals.getD iv.1 0 = iv.2 := by
  have h' := List.mem_enum_iff_getElem?.mp h
  obtain ⟨hlt, hget⟩ := List.getElem?_eq_some_iff.mp h'
  exact ⟨hlt, by rw [List.getD_eq_getElem vals 0 hlt, hget]⟩

theorem chooseBucket_spec (diff : ℚ) (vals : List ℚ) (hne : vals ≠ []) :
    chooseBucket diff vals < vals.length ∧
    ((∃ iv ∈ vals.enum, SignMatch diff iv.2) →
      SignMatch diff (vals.getD (chooseBucket diff vals) 0) ∧
      ∀ iv ∈ vals.enum, SignMatch diff iv.2 →
        |iv.2| ≤ |vals.getD (chooseBucket diff vals) 0|) ∧
    ((¬ ∃ iv ∈ vals.enum, SignMatch diff iv.2) →
      ∀ iv ∈ vals.enum, |iv.2| ≤ |vals.getD (chooseBucket diff vals) 0|) := by
  rcases hcand : sameSignCandidates diff vals with _ | ⟨c, cs⟩
  · have hnosm : ∀ iv ∈ vals.enum, ¬ SignMatch diff iv.2 := by
      intro iv hiv hsm
      have : (iv.1, |iv.2|) ∈ sameSignCandidates diff vals := by
        unfold sameSignCandidates
        exact List.mem_map.mpr ⟨iv, List.mem_filter.mpr ⟨hiv, by simpa using hsm⟩, rfl⟩
      rw [hcand] at this
      exact absurd this (by simp)
    have hmne : vals.enum.map (fun iv => (iv.1, |iv.2|)) ≠ [] := by
      intro hmap
      have henum : vals.enum = [] := by simpa using hmap
      have hlen := congrArg List.length henum
      simp only [List.enum_length, List.length_nil] at hlen
      exact hne (List.length_eq_zero.mp hlen)
    obtain ⟨jv, hpick, hmem, hmax⟩ := pickArgmax_spec hmne
    obtain ⟨iv, hiv, rfl⟩ := List.mem_map.mp hmem
    obtain ⟨hlt, hgd⟩ := enum_getD hiv
    have hcb : chooseBucket diff vals = iv.1 := by
      unfold chooseBucket
      rw [hcand, hpick]
      rfl
    rw [hcb, hgd]
    refine ⟨hlt, ?_, ?_⟩
    · intro ⟨iv', hiv', hsm'⟩
      exact absurd hsm' (hnosm iv' hiv')
    · intro _ iv' hiv'
      have := hmax (iv'.1, |iv'.2|) (List.mem_map.mpr ⟨iv', hiv', rfl⟩)
      simpa [abs_abs] using this
  · have hcne : sameSignCandidates diff vals ≠ [] := by rw [hcand]; simp
    obtain ⟨jv, hpick, hmem, hmax⟩ := pickArgmax_spec hcne
    obtain ⟨iv, hiv, hsm, rfl⟩ := mem_sameSignCandidates hmem
    obtain ⟨hlt, hgd⟩ := enum_getD hiv
    have hcb : chooseBucket diff vals = iv.1 := by
      unfold chooseBucket
      rw [hpick]
    rw [hcb, hgd]
    refine ⟨hlt, ?_, ?_⟩
    · intro _
      refine ⟨hsm, ?_⟩
      intro iv' hiv' hsm'
      have : (iv'.1, |iv'.2|) ∈ sameSignCandidates diff vals := by
        unfold sameSignCandidates
        exact List.mem_map.mpr ⟨iv', List.mem_filter.mpr ⟨hiv', by simpa using hsm'⟩, rfl⟩
      simpa [abs_abs] using hmax _ this
    · intro hno
      exact absurd ⟨iv, hiv, hsm⟩ hno

/-- Closed form of `alignRow` on a row with a matching balance and a
non-zero difference: the whole difference lands on the chosen bucket. -/
theorem alignRow_adjust_eq {balances : List ProductBalanceRow} {d : Date}
    {row : ReportRow} {t : ℚ}
    (h2dp : ∀ v ∈ row.buckets, TwoDp v)
    (hlk : lookupBalance balances d row.v_prod_code row.v_ccy_code = some t)
    (hdiff : roundHU2 t - sumList row.buckets ≠ 0)
    (hne : row.buckets ≠ []) :
    alignRow balances d row
      = { row with
          buckets := row.buckets.set
              (chooseBucket (roundHU2 t - sumList row.buckets) row.buckets)
              (row.buckets.getD
                  (chooseBucket (roundHU2 t - sumList row.buckets) row.buckets) 0
                + (roundHU2 t - sumList row.buckets)) } := by
  have hid : row.buckets.map roundHU2 = row.buckets := map_roundHU2_eq_self h2dp
  have hk := (chooseBucket_spec (roundHU2 t - sumList row.buckets) row.buckets hne).1
  have hTv : TwoDp (row.buckets.getD
      (chooseBucket (roundHU2 t - sumList row.buckets) row.buckets) 0) := by
    rw [List.getD_eq_getElem _ _ hk]
    exact h2dp _ (List.getElem_mem hk)
  have hTd : TwoDp (roundHU2 t - sumList row.buckets) :=
    twoDp_sub (twoDp_roundHU2 t) (twoDp_sum h2dp)
  have hnew := roundHU2_of_twoDp (twoDp_add hTv hTd)
  simp only [alignRow, hlk, hid]
  rw [if_neg hdiff, if_neg hne, hnew]

/-- Closed form of `alignRow` when the difference is zero: no change. -/
theorem alignRow_zero_eq {balances : List ProductBalanceRow} {d : Date}
    {row : ReportRow} {t : ℚ}
    (h2dp : ∀ v ∈ row.buckets, TwoDp v)
    (hlk : lookupBalance balances d row.v_prod_code row.v_ccy_code = some t)
    (hdiff : roundHU2 t - sumList row.buckets = 0) :
    alignRow balances d row = row := by
  have hid : row.buckets.map roundHU2 = row.buckets := map_roundHU2_eq_self h2dp
  simp only [alignRow, hlk, hid]
  rw [if_pos hdiff]

/-- C1: for every row of the snapshot report relation with a matching
target-balance record, after `align_buckets_to_balance` the reconciled
row is in the output, the absolute difference between its bucket sum and
the target balance is at most the 0.01 tolerance, and the entire
difference (quantized target minus pre-adjustment sum) was added to
exactly one bucket column, all others unchanged. -/
theorem claimC1_reconciliation_exactness
    (d : Date) (balances : List ProductBalanceRow) (rows : List ReportRow)
    (row : ReportRow) (t : ℚ)
    (hmem : row ∈ rows) (hd : row.fic_mis_date = d)
    (h2dp : ∀ v ∈ row.buckets, TwoDp v)
    (hne : row.buckets ≠ [])
    (hlk : lookupBalance balances d row.v_prod_code row.v_ccy_code = some t) :
    alignRow balances d row ∈ alignBucketsToBalance d balances rows ∧
    |sumList (alignRow balances d row).buckets - t| ≤ 1 / 100 ∧
    ∃ k, ∃ hk : k < row.buckets.length,
      (alignRow balances d row).buckets
        = row.buckets.set k
            (row.buckets.get ⟨k, hk⟩ + (roundHU2 t - sumList row.buckets)) := by
  refine ⟨?_, ?_⟩
  · unfold alignBucketsToBalance
    have hfr : (fun r => if r.fic_mis_date = d then alignRow balances d r else r) row
        = alignRow balances d row := by
      simp [hd]
    exact hfr ▸ List.mem_map_of_mem _ hmem
  by_cases hdiff : roundHU2 t - sumList row.buckets = 0
  · rw [alignRow_zero_eq h2dp hlk hdiff]
    have hlen : 0 < row.buckets.length := List.length_pos.mpr hne
    refine ⟨?_, 0, hlen, ?_⟩
    · have hsum : sumList row.buckets = roundHU2 t := by linarith [hdiff]
      rw [hsum]
      exact le_trans (abs_roundHU2_sub_le t) (by norm_num)
    · rw [hdiff, add_zero, set_get_self]
  · rw [alignRow_adjust_eq h2dp hlk hdiff hne]
    have hk := (chooseBucket_spec (roundHU2 t - sumList row.buckets) row.buckets hne).1
    refine ⟨?_, chooseBucket (roundHU2 t - sumList row.buckets) row.buckets, hk, ?_⟩
    · show |sumList (row.buckets.set _ _) - t| ≤ 1 / 100
      rw [sumList_set _ _ _ hk]
      have heq : sumList row.buckets
          + (row.buckets.getD
              (chooseBucket (roundHU2 t - sumList row.buckets) row.buckets) 0
            + (roundHU2 t - sumList row.buckets))
          - row.buckets.getD
              (chooseBucket (roundHU2 t - sumList row.buckets) row.buckets) 0
          = roundHU2 t := by ring
      rw [heq]
      exact le_trans (abs_roundHU2_sub_le t) (by norm_num)
    · rw [List.getD_eq_getElem _ _ hk]
      rfl

/-- C1 witness: a concrete row (buckets 0 and 1000) with target balance
1200 is driven to bucket sum 1200 by one adjustment. -/
theorem claimC1_witness :
    ((⟨1, ⟨2025, 4, 30⟩, "P1", "USD", "LOANS", "contractual", [0, 1000]⟩ : ReportRow)
      ∈ [(⟨1, ⟨2025, 4, 30⟩, "P1", "USD", "LOANS", "contractual", [0, 1000]⟩ : ReportRow)]) ∧
    (∀ v ∈ ([0, 1000] : List ℚ), TwoDp v) ∧
    lookupBalance [⟨⟨2025, 4, 30⟩, "P1", "USD", 1200⟩] ⟨2025, 4, 30⟩ "P1" "USD"
      = some 1200 ∧
    |sumList (alignRow [⟨⟨2025, 4, 30⟩, "P1", "USD", 1200⟩] ⟨2025, 4, 30⟩
        ⟨1, ⟨2025, 4, 30⟩, "P1", "USD", "LOANS", "contractual", [0, 1000]⟩).buckets
      - 1200| ≤ 1 / 100 := by
  refine ⟨by simp, ?_, by decide, ?_⟩
  · intro v hv
    rcases List.mem_cons.mp hv with h | h
    · exact ⟨0, by rw [h]; norm_num⟩
    · have : v = 1000 := by simpa using h
      exact ⟨100000, by rw [this]; norm_num⟩
  · exact (claimC1_reconciliation_exactness ⟨2025, 4, 30⟩
      [⟨⟨2025, 4, 30⟩, "P1", "USD", 1200⟩]
      [⟨1, ⟨2025, 4, 30⟩, "P1", "USD", "LOANS", "contractual", [0, 1000]⟩]
      ⟨1, ⟨2025, 4, 30⟩, "P1", "USD", "LOANS", "contractual", [0, 1000]⟩ 1200
      (by simp) rfl
      (by
        intro v hv
        rcases List.mem_cons.mp hv with h | h
        · exact ⟨0, by rw [h]; norm_num⟩
        · have : v = 1000 := by simpa using h
          exact ⟨100000, by rw [this]; norm_num⟩)
      (by decide) (by decide)).2.1

/-- C2 counterexample: with buckets [0, −5] and positive difference 3,
no bucket strictly sign-matches the difference, so the claimed policy
mandates the largest-absolute-value bucket (index 1, value −5); the
code instead adjusts bucket 0 (a zero bucket counts as sign-matching a
positive difference), producing [3, −5]. -/
theorem claimC2_counterexample :
    alignRow [⟨⟨2025, 4, 30⟩, "P1", "USD", (-2 : ℚ)⟩] ⟨2025, 4, 30⟩
        ⟨1, ⟨2025, 4, 30⟩, "P1", "USD", "LOANS", "contractual", [0, -5]⟩
      = ⟨1, ⟨2025, 4, 30⟩, "P1", "USD", "LOANS", "contractual", [3, -5]⟩ ∧
    (∀ v ∈ ([0, -5] : List ℚ), ¬ StrictSignMatch 3 v) ∧
    ¬ (∀ v ∈ ([0, -5] : List ℚ), |v| ≤ |(0 : ℚ)|) := by
  refine ⟨by decide, by decide, by decide⟩

/-- C2 (amended): for a reconciled row with non-zero difference, the
adjusted bucket is chosen as: among buckets whose value is ≥ 0 when the
difference is positive (or < 0 when it is negative), the one with the
largest absolute value; if no bucket qualifies, the bucket with the
largest absolute value overall. -/
theorem claimC2_adjustment_policy
    (balances : List ProductBalanceRow) (d : Date) (row : ReportRow) (t : ℚ)
    (h2dp : ∀ v ∈ row.buckets, TwoDp v)
    (hne : row.buckets ≠ [])
    (hlk : lookupBalance balances d row.v_prod_code row.v_ccy_code = some t)
    (hdiff : roundHU2 t - sumList row.buckets ≠ 0) :
    ∃ hk : chooseBucket (roundHU2 t - sumList row.buckets) row.buckets
        < row.buckets.length,
      (alignRow balances d row).buckets
        = row.buckets.set (chooseBucket (roundHU2 t - sumList row.buckets) row.buckets)
            (row.buckets.get
                ⟨chooseBucket (roundHU2 t - sumList row.buckets) row.buckets, hk⟩
              + (roundHU2 t - sumList row.buckets)) ∧
      ((∃ iv ∈ row.buckets.enum, SignMatch (roundHU2 t - sumList row.buckets) iv.2) →
        SignMatch (roundHU2 t - sumList row.buckets)
          (row.buckets.getD
            (chooseBucket (roundHU2 t - sumList row.buckets) row.buckets) 0) ∧
        ∀ iv ∈ row.buckets.enum, SignMatch (roundHU2 t - sumList row.buckets) iv.2 →
          |iv.2| ≤ |row.buckets.getD
            (chooseBucket (roundHU2 t - sumList row.buckets) row.buckets) 0|) ∧
      ((¬ ∃ iv ∈ row.buckets.enum, SignMatch (roundHU2 t - sumList row.buckets) iv.2) →
        ∀ iv ∈ row.buckets.enum,
          |iv.2| ≤ |row.buckets.getD
            (chooseBucket (roundHU2 t - sumList row.buckets) row.buckets) 0|) := by
  obtain ⟨hk, hpos, hneg⟩ :=
    chooseBucket_spec (roundHU2 t - sumList row.buckets) row.buckets hne
  refine ⟨hk, ?_, hpos, hneg⟩
  rw [alignRow_adjust_eq h2dp hlk hdiff hne]
  rw [List.getD_eq_getElem _ _ hk]
  rfl

/-- C2 witness: buckets [0, −5] with target −2 (difference +3): the
code's policy picks bucket 0. -/
theorem claimC2_witness :
    (∀ v ∈ ([0, -5] : List ℚ), TwoDp v) ∧
    (([0, -5] : List ℚ) ≠ []) ∧
    roundHU2 (-2 : ℚ) - sumList [0, -5] ≠ 0 ∧
    ∃ hk : chooseBucket (roundHU2 (-2 : ℚ) - sumList [0, -5]) [0, -5] < 2,
      (alignRow [⟨⟨2025, 4, 30⟩, "P1", "USD", (-2 : ℚ)⟩] ⟨2025, 4, 30⟩
          ⟨1, ⟨2025, 4, 30⟩, "P1", "USD", "LOANS", "contractual", [0, -5]⟩).buckets
        = ([0, -5] : List ℚ).set
            (chooseBucket (roundHU2 (-2 : ℚ) - sumList [0, -5]) [0, -5])
            (([0, -5] : List ℚ).get
                ⟨chooseBucket (roundHU2 (-2 : ℚ) - sumList [0, -5]) [0, -5], hk⟩
              + (roundHU2 (-2 : ℚ) - sumList [0, -5])) := by
  have h2dp : ∀ v ∈ ([0, -5] : List ℚ), TwoDp v := by
    intro v hv
    rcases List.mem_cons.mp hv with h | h
    · exact ⟨0, by rw [h]; norm_num⟩
    · have : v = -5 := by simpa using h
      exact ⟨-500, by rw [this]; norm_num⟩
  refine ⟨h2dp, by decide, by decide, ?_⟩
  obtain ⟨hk, heq, -, -⟩ := claimC2_adjustment_policy
    [⟨⟨2025, 4, 30⟩, "P1", "USD", (-2 : ℚ)⟩] ⟨2025, 4, 30⟩
    ⟨1, ⟨2025, 4, 30⟩, "P1", "USD", "LOANS", "contractual", [0, -5]⟩ (-2)
    h2dp (by decide) (by decide) (by decide)
  exact ⟨hk, heq⟩

/-! ## Schema synchronizer lemmas -/

theorem bucketColumnName_startsWith (b : TimeBucketMasterRow) :
    ∃ z, bucketColumnName b = "bucket_".toList ++ z := by
  unfold bucketColumnName
  rw [List.map_append,
    show ("bucket_".toList.map sanitizeChar) = "bucket_".toList by decide]
  rw [List.take_append_eq_append_take, List.take_of_length_le (by decide)]
  exact ⟨_, rfl⟩

theorem likeBucketPattern_required {c : ColName} {tbm : List TimeBucketMasterRow}
    {processName : String} (h : c ∈ requiredBucketColumns tbm processName) :
    likeBucketPattern c = true := by
  unfold requiredBucketColumns at h
  obtain ⟨b, -, rfl⟩ := List.mem_map.mp h
  obtain ⟨z, hz⟩ := bucketColumnName_startsWith b
  rw [hz]
  unfold likeBucketPattern
  rw [Bool.and_eq_true]
  constructor
  · rw [List.isPrefixOf_iff_prefix]
    have h1 : "bucket".toList <+: "bucket_".toList := ⟨['_'], by decide⟩
    exact h1.trans (List.prefix_append _ _)
  · rw [decide_eq_true_eq, List.length_append,
      show ("bucket_".toList).length = 7 by decide]
    omega

theorem mem_foldl_addColumn_init {c : ColName} :
    ∀ (req cols : List ColName), c ∈ cols → c ∈ req.foldl addColumnIfAbsent cols := by
  intro req
  induction req with
  | nil => exact fun cols h => h
  | cons r rest ih =>
    intro cols h
    have hmem : c ∈ addColumnIfAbsent cols r := by
      by_cases hr : r ∈ cols
      · simpa [addColumnIfAbsent, hr] using h
      · rw [show addColumnIfAbsent cols r = cols ++ [r] from by
            simp [addColumnIfAbsent, hr]]
        exact List.mem_append_left _ h
    exact ih _ hmem

theorem mem_foldl_addColumn_req {c : ColName} :
    ∀ (req cols : List ColName), c ∈ req → c ∈ req.foldl addColumnIfAbsent cols := by
  intro req
  induction req with
  | nil => intro cols h; exact absurd h (by simp)
  | cons r rest ih =>
    intro cols h
    rcases List.mem_cons.mp h with h | h
    · subst h
      show c ∈ rest.foldl addColumnIfAbsent (addColumnIfAbsent cols c)
      apply mem_foldl_addColumn_init
      by_cases hr : c ∈ cols
      · simpa [addColumnIfAbsent, hr] using hr
      · rw [show addColumnIfAbsent cols c = cols ++ [c] from by
            simp [addColumnIfAbsent, hr]]
        exact List.mem_append_right _ (by simp)
    · exact ih _ h

theorem foldl_addColumn_of_subset :
    ∀ (req cols : List ColName), (∀ c ∈ req, c ∈ cols) →
      req.foldl addColumnIfAbsent cols = cols := by
  intro req
  induction req with
  | nil => exact fun cols _ => rfl
  | cons r rest ih =>
    intro cols h
    show rest.foldl addColumnIfAbsent (addColumnIfAbsent cols r) = cols
    have hr : addColumnIfAbsent cols r = cols := by
      simp [addColumnIfAbsent, h r (by simp)]
    rw [hr]
    exact ih _ (fun c hc => h c (by simp [hc]))

theorem filter_foldl_addColumn (p : ColName → Bool) :
    ∀ (req cols : List ColName), (∀ c ∈ req, p c = false) →
      (req.foldl addColumnIfAbsent cols).filter p = cols.filter p := by
  intro req
  induction req with
  | nil => exact fun cols _ => rfl
  | cons r rest ih =>
    intro cols h
    show (rest.foldl addColumnIfAbsent (addColumnIfAbsent cols r)).filter p
      = cols.filter p
    rw [ih _ (fun c hc => h c (by simp [hc]))]
    by_cases hr : r ∈ cols
    · simp [addColumnIfAbsent, hr]
    · rw [show addColumnIfAbsent cols r = cols ++ [r] from by
        simp [addColumnIfAbsent, hr]]
      rw [List.filter_append]
      have hpr : [r].filter p = [] := by
        simp [List.filter, h r (by simp)]
      rw [hpr, List.append_nil]

/-- C5 (amended): `sync_bucket_columns` is idempotent (a second run with
the same bucket master leaves the column list unchanged), and no column
whose name does not match the SQL LIKE pattern 'bucket\_%' — 'bucket'
followed by at least one arbitrary character, the underscore being a
LIKE wildcard — is ever dropped by any run. -/
theorem claimC5_sync_idempotent_and_preserving
    (tableName : String) (rebuild : Bool) (tbm : List TimeBucketMasterRow)
    (processName : String) (cols : List ColName) :
    sync_bucket_columns tableName rebuild tbm processName
        (sync_bucket_columns tableName rebuild tbm processName cols)
      = sync_bucket_columns tableName rebuild tbm processName cols ∧
    ∀ c ∈ cols, likeBucketPattern c = false →
      c ∈ sync_bucket_columns tableName rebuild tbm processName cols := by
  unfold sync_bucket_columns syncBucketColumnsCore
  have hreqlike : ∀ c ∈ requiredBucketColumns tbm processName,
      (!likeBucketPattern c) = false := by
    intro c hc
    rw [likeBucketPattern_required hc]
    rfl
  constructor
  · cases hmr : mustRebuildFor tableName rebuild
    · rw [if_neg (by simp), if_neg (by simp)]
      apply foldl_addColumn_of_subset
      intro c hc
      exact mem_foldl_addColumn_req _ _ hc
    · rw [if_pos rfl, if_pos rfl]
      rw [filter_foldl_addColumn _ _ _ hreqlike]
      have hff : ((cols.filter (fun c => !likeBucketPattern c)).filter
          (fun c => !likeBucketPattern c))
            = cols.filter (fun c => !likeBucketPattern c) := by
        rw [List.filter_filter]
        exact List.filter_congr (fun a _ => by rw [Bool.and_self])
      rw [hff]
  · intro c hc hlike
    cases hmr : mustRebuildFor tableName rebuild
    · rw [if_neg (by simp)]
      exact mem_foldl_addColumn_init _ _ hc
    · rw [if_pos rfl]
      apply mem_foldl_addColumn_init
      exact List.mem_filter.mpr ⟨hc, by rw [hlike]; rfl⟩

/-- C5 witness: a single non-bucket column on the rebuild table
`Report_Contractual_Base` survives the sync, and a second sync is a
no-op. -/
theorem claimC5_witness :
    ("v_prod_code".toList ∈ (["v_prod_code".toList] : List ColName)) ∧
    likeBucketPattern "v_prod_code".toList = false ∧
    "v_prod_code".toList ∈ sync_bucket_columns "Report_Contractual_Base" false []
        "contractual" ["v_prod_code".toList] ∧
    sync_bucket_columns "Report_Contractual_Base" false [] "contractual"
        (sync_bucket_columns "Report_Contractual_Base" false [] "contractual"
          ["v_prod_code".toList])
      = sync_bucket_columns "Report_Contractual_Base" false [] "contractual"
          ["v_prod_code".toList] := by
  obtain ⟨hidem, hpres⟩ := claimC5_sync_idempotent_and_preserving
    "Report_Contractual_Base" false [] "contractual" ["v_prod_code".toList]
  exact ⟨by decide, by decide, hpres _ (by decide) (by decide), hidem⟩

/-- C5 counterexample: the column "buckets" does not start with
"bucket_", yet a rebuild run drops it, because the drop predicate is the
SQL LIKE pattern 'bucket\_%' whose underscore is a wildcard. -/
theorem claimC5_counterexample :
    hasBucketUnderscore "buckets".toList = false ∧
    "buckets".toList ∈ (["buckets".toList, "v_prod_code".toList] : List ColName) ∧
    "buckets".toList ∉ sync_bucket_columns "Report_Contractual_Base" false []
        "contractual" ["buckets".toList, "v_prod_code".toList] := by
  refine ⟨by decide, by decide, by decide⟩

/-! ## Behavioural respreader lemmas -/

theorem spreadSplits_cons (bmap : List (ℕ × ColName)) (amt : ℚ) (s : ℕ × ℚ)
    (rest : List (ℕ × ℚ)) (g : ColName → ℚ) :
    spreadSplits bmap amt (s :: rest) g
      = spreadSplits bmap amt rest
          (match lookupAssoc bmap s.1 with
           | some dst_col => addAt g dst_col (amt * s.2)
           | none => g) :=
  rfl

theorem spreadSplits_filter_mapped (bmap : List (ℕ × ColName)) (amt : ℚ) :
    ∀ (splits : List (ℕ × ℚ)) (g : ColName → ℚ),
      spreadSplits bmap amt splits g
        = spreadSplits bmap amt
            (splits.filter (fun s => (lookupAssoc bmap s.1).isSome)) g := by
  intro splits
  induction splits with
  | nil => intro g; rfl
  | cons s rest ih =>
    intro g
    rw [spreadSplits_cons]
    cases hls : lookupAssoc bmap s.1 with
    | some dst =>
      have hf : (s :: rest).filter (fun s => (lookupAssoc bmap s.1).isSome)
          = s :: rest.filter (fun s => (lookupAssoc bmap s.1).isSome) := by
        simp [List.filter_cons, hls]
      rw [hf, spreadSplits_cons, hls]
      exact ih _
    | none =>
      have hf : (s :: rest).filter (fun s => (lookupAssoc bmap s.1).isSome)
          = rest.filter (fun s => (lookupAssoc bmap s.1).isSome) := by
        simp [List.filter_cons, hls]
      rw [hf]
      exact ih _

theorem spreadRow_filter_mapped (bmap : List (ℕ × ColName))
    (splits : List (ℕ × ℚ)) (vals : ColName → ℚ) :
    spreadRow bmap splits vals
      = spreadRow bmap (splits.filter (fun s => (lookupAssoc bmap s.1).isSome))
          vals := by
  unfold spreadRow
  have hstep : ∀ (l : List (ℕ × ColName)) (g : ColName → ℚ),
      l.foldl (fun g src =>
          if vals src.2 = 0 then g else spreadSplits bmap (vals src.2) splits g) g
        = l.foldl (fun g src =>
            if vals src.2 = 0 then g
            else spreadSplits bmap (vals src.2)
              (splits.filter (fun s => (lookupAssoc bmap s.1).isSome)) g) g := by
    intro l
    induction l with
    | nil => intro g; rfl
    | cons x rest ih =>
      intro g
      simp only [List.foldl_cons]
      rw [show (if vals x.2 = 0 then g else spreadSplits bmap (vals x.2) splits g)
          = (if vals x.2 = 0 then g
             else spreadSplits bmap (vals x.2)
               (splits.filter (fun s => (lookupAssoc bmap s.1).isSome)) g) from by
        by_cases h0 : vals x.2 = 0
        · rw [if_pos h0, if_pos h0]
        · rw [if_neg h0, if_neg h0, spreadSplits_filter_mapped]]
      exact ih _
  exact hstep bmap _

theorem sumOver_cons (c : ColName) (cols : List ColName) (g : ColName → ℚ) :
    sumOver (c :: cols) g = g c + sumOver cols g := by
  simp [sumOver]

theorem sumOver_congr {cols : List ColName} {g h : ColName → ℚ}
    (he : ∀ c ∈ cols, g c = h c) : sumOver cols g = sumOver cols h := by
  unfold sumOver
  rw [List.map_congr_left he]

theorem sumOver_zero (cols : List ColName) : sumOver cols (fun _ => 0) = 0 := by
  induction cols with
  | nil => rfl
  | cons c rest ih => rw [sumOver_cons, ih, add_zero]

theorem sumOver_addAt {cols : List ColName} {c : ColName} (hc : c ∈ cols)
    (hnd : cols.Nodup) (g : ColName → ℚ) (x : ℚ) :
    sumOver cols (addAt g c x) = sumOver cols g + x := by
  induction cols with
  | nil => exact absurd hc (by simp)
  | cons a rest ih =>
    rw [sumOver_cons, sumOver_cons]
    have hnotin : a ∉ rest := (List.nodup_cons.mp hnd).1
    have hndr : rest.Nodup := (List.nodup_cons.mp hnd).2
    rcases List.mem_cons.mp hc with h | h
    · have h1 : addAt g c x a = g a + x := by simp [addAt, h]
      have h2 : sumOver rest (addAt g c x) = sumOver rest g :=
        sumOver_congr (fun b hb => by
          have hba : b ≠ c := by
            intro hbc
            rw [hbc, h] at hb
            exact hnotin hb
          simp [addAt, hba])
      rw [h1, h2]
      ring
    · have hac : a ≠ c := by
        intro hac
        rw [hac] at hnotin
        exact hnotin h
      have h1 : addAt g c x a = g a := by simp [addAt, hac]
      rw [h1, ih h hndr]
      ring

theorem lookupAssoc_mem {m : List (ℕ × ColName)} {k : ℕ} {v : ColName}
    (h : lookupAssoc m k = some v) : ∃ q ∈ m, q.2 = v ∧ q.1 = k := by
  unfold lookupAssoc at h
  obtain ⟨q, hq, hv⟩ := Option.map_eq_some'.mp h
  refine ⟨q, List.mem_of_find?_eq_some hq, hv, ?_⟩
  have := List.find?_some hq
  simpa using this

theorem sumOver_spreadSplits {cols : List ColName} (hnd : cols.Nodup)
    (bmap : List (ℕ × ColName)) (hvals : ∀ q ∈ bmap, q.2 ∈ cols) (amt : ℚ) :
    ∀ (splits : List (ℕ × ℚ)) (g : ColName → ℚ),
      (∀ s ∈ splits, (lookupAssoc bmap s.1).isSome) →
      sumOver cols (spreadSplits bmap amt splits g)
        = sumOver cols g + amt * (splits.map (fun s => s.2)).sum := by
  intro splits
  induction splits with
  | nil => intro g _; simp [spreadSplits]
  | cons s rest ih =>
    intro g hall
    obtain ⟨dst, hdst⟩ := Option.isSome_iff_exists.mp (hall s (by simp))
    rw [spreadSplits_cons]
    simp only [hdst]
    rw [ih _ (fun s' hs' => hall s' (by simp [hs']))]
    obtain ⟨q, hq, hqv, hqk⟩ := lookupAssoc_mem hdst
    have hdmem : dst ∈ cols := hqv ▸ hvals q hq
    rw [sumOver_addAt hdmem hnd]
    simp only [List.map_cons, List.sum_cons]
    ring

theorem sumOver_spreadRow {cols : List ColName} (hnd : cols.Nodup)
    (bmap : List (ℕ × ColName)) (hvals : ∀ q ∈ bmap, q.2 ∈ cols)
    (splits : List (ℕ × ℚ))
    (hall : ∀ s ∈ splits, (lookupAssoc bmap s.1).isSome) (vals : ColName → ℚ) :
    sumOver cols (spreadRow bmap splits vals)
      = (bmap.map (fun q => vals q.2)).sum * (splits.map (fun s => s.2)).sum := by
  unfold spreadRow
  have hgen : ∀ (l : List (ℕ × ColName)) (g : ColName → ℚ),
      sumOver cols (l.foldl (fun g src =>
          if vals src.2 = 0 then g else spreadSplits bmap (vals src.2) splits g) g)
        = sumOver cols g
          + (l.map (fun q => vals q.2)).sum * (splits.map (fun s => s.2)).sum := by
    intro l
    induction l with
    | nil => intro g; simp
    | cons x rest ih =>
      intro g
      simp only [List.foldl_cons, List.map_cons, List.sum_cons]
      by_cases h0 : vals x.2 = 0
      · rw [if_pos h0, ih, h0]
        ring
      · rw [if_neg h0, ih, sumOver_spreadSplits hnd bmap hvals _ _ _ hall]
        ring
  rw [hgen bmap _, sumOver_zero, zero_add]

theorem sumOver_round_close (cols : List ColName) (g : ColName → ℚ) :
    |sumOver cols (fun c => roundHU2 (g c)) - sumOver cols g|
      ≤ (cols.length : ℚ) * (1 / 200) := by
  induction cols with
  | nil => simp [sumOver]
  | cons c rest ih =>
    rw [sumOver_cons, sumOver_cons]
    have h1 := abs_roundHU2_sub_le (g c)
    have h2 : |roundHU2 (g c) + sumOver rest (fun c => roundHU2 (g c))
        - (g c + sumOver rest g)|
        ≤ |roundHU2 (g c) - g c|
          + |sumOver rest (fun c => roundHU2 (g c)) - sumOver rest g| := by
      have := abs_add (roundHU2 (g c) - g c)
        (sumOver rest (fun c => roundHU2 (g c)) - sumOver rest g)
      calc |roundHU2 (g c) + sumOver rest (fun c => roundHU2 (g c))
          - (g c + sumOver rest g)|
          = |(roundHU2 (g c) - g c)
            + (sumOver rest (fun c => roundHU2 (g c)) - sumOver rest g)| := by
            ring_nf
        _ ≤ _ := this
    have h3 : ((c :: rest).length : ℚ) = (rest.length : ℚ) + 1 := by
      push_cast [List.length_cons]
      ring
    rw [h3]
    calc |roundHU2 (g c) + sumOver rest (fun c => roundHU2 (g c))
        - (g c + sumOver rest g)|
        ≤ |roundHU2 (g c) - g c|
          + |sumOver rest (fun c => roundHU2 (g c)) - sumOver rest g| := h2
      _ ≤ 1 / 200 + (rest.length : ℚ) * (1 / 200) := add_le_add h1 ih
      _ = ((rest.length : ℚ) + 1) * (1 / 200) := by ring

theorem bucketMapGo_snd :
    ∀ (cols : List ColName) (m : List (ℕ × ColName)),
      (∀ c ∈ cols, (parseBucketNo c).isSome) →
      (∀ c1 ∈ cols, ∀ c2 ∈ cols, parseBucketNo c1 = parseBucketNo c2 → c1 = c2) →
      cols.Nodup →
      (∀ q ∈ m, ∀ c ∈ cols, parseBucketNo c ≠ some q.1) →
      (cols.foldl
          (fun m col =>
            match parseBucketNo col with
            | none => m
            | some no => insertAssoc m no col) m).map Prod.snd
        = m.map Prod.snd ++ cols := by
  intro cols
  induction cols with
  | nil => intro m _ _ _ _; simp
  | cons c rest ih =>
    intro m hparse hinj hnd hfresh
    obtain ⟨k, hk⟩ := Option.isSome_iff_exists.mp (hparse c (by simp))
    simp only [List.foldl_cons, hk]
    have hnotin : m.any (fun q => q.1 == k) = false := by
      rw [List.any_eq_false]
      intro q hq
      have hh := hfresh q hq c (by simp)
      rw [hk] at hh
      simp only [beq_iff_eq]
      intro hqk
      exact hh (by rw [hqk])
    have hins : insertAssoc m k c = m ++ [(k, c)] := by
      simp [insertAssoc, hnotin]
    rw [hins]
    have hfresh' : ∀ q ∈ m ++ [(k, c)], ∀ c' ∈ rest, parseBucketNo c' ≠ some q.1 := by
      intro q hq c' hc'
      rcases List.mem_append.mp hq with hqm | hqk
      · exact hfresh q hqm c' (by simp [hc'])
      · have hqeq : q = (k, c) := by simpa using hqk
        subst hqeq
        intro hpc'
        have hcc : c' = c := hinj c' (by simp [hc']) c (by simp) (by rw [hpc', hk])
        exact (List.nodup_cons.mp hnd).1 (hcc ▸ hc')
    rw [ih (m ++ [(k, c)])
      (fun c' hc' => hparse c' (by simp [hc']))
      (fun c1 h1 c2 h2 he => hinj c1 (by simp [h1]) c2 (by simp [h2]) he)
      (List.nodup_cons.mp hnd).2 hfresh']
    simp

theorem buildBucketMap_snd (cols : List ColName)
    (hparse : ∀ c ∈ cols, (parseBucketNo c).isSome)
    (hinj : ∀ c1 ∈ cols, ∀ c2 ∈ cols, parseBucketNo c1 = parseBucketNo c2 → c1 = c2)
    (hnd : cols.Nodup) :
    (buildBucketMap cols).map Prod.snd = cols := by
  unfold buildBucketMap
  have := bucketMapGo_snd cols [] hparse hinj hnd (by simp)
  simpa using this

theorem lookupPattern_buildPatterns {P : List PatternRow} {p : PatternRow}
    (hp : p ∈ P) (hne : p.splits ≠ [])
    (huniq : ∀ q ∈ P, q.v_prod_type = p.v_prod_type → q = p) :
    lookupPattern (buildPatterns P) p.v_prod_type
      = some (p.splits.map (fun s => (s.1, s.2 / 100))) := by
  induction P with
  | nil => exact absurd hp (by simp)
  | cons q rest ih =>
    have hstep : buildPatterns (q :: rest)
        = (if q.splits.isEmpty then buildPatterns rest
           else (q.v_prod_type, q.splits.map (fun s => (s.1, s.2 / 100)))
             :: buildPatterns rest) := by
      unfold buildPatterns
      rw [List.filter_cons]
      cases hqe : q.splits.isEmpty
      · simp
      · simp
    by_cases hq : q.v_prod_type = p.v_prod_type
    · have hqp : q = p := huniq q (by simp) hq
      have hqemp : q.splits.isEmpty = false := by
        rw [hqp]
        exact List.isEmpty_eq_false.mpr hne
      rw [hstep, hqemp]
      simp only [Bool.false_eq_true, if_false]
      unfold lookupPattern
      rw [List.find?_cons_of_pos _ (by simp [hq])]
      rw [hqp]
      rfl
    · have hprest : p ∈ rest := by
        rcases List.mem_cons.mp hp with h | h
        · exact absurd (congrArg PatternRow.v_prod_type h.symm) hq
        · exact h
      have ihr := ih hprest (fun r hr he => huniq r (by simp [hr]) he)
      rw [hstep]
      cases hqe : q.splits.isEmpty
      · simp only [Bool.false_eq_true, if_false]
        unfold lookupPattern at ihr ⊢
        rw [List.find?_cons_of_neg _ (by simp [hq])]
        exact ihr
      · simp only [if_true]
        exact ihr

theorem sum_map_div (l : List (ℕ × ℚ)) (c : ℚ) :
    (l.map (fun s => s.2 / c)).sum = (l.map (fun s => s.2)).sum / c := by
  induction l with
  | nil => simp
  | cons x rest ih =>
    simp only [List.map_cons, List.sum_cons, ih]
    ring

theorem processRow_type {patterns : List (String × List (ℕ × ℚ))}
    {bmap : List (ℕ × ColName)} {r out : BehRow}
    (h : processRow patterns bmap r = some out) :
    out.v_prod_type = r.v_prod_type := by
  unfold processRow at h
  cases hlk : lookupPattern patterns r.v_prod_type with
  | none =>
    rw [hlk] at h
    exact absurd h (by simp)
  | some sp =>
    rw [hlk] at h
    simp only [] at h
    cases hsp : sp.isEmpty
    · rw [if_neg (by rw [hsp]; exact Bool.false_ne_true)] at h
      have hout := Option.some.inj h
      rw [← hout]
    · rw [if_pos (by rw [hsp])] at h
      exact absurd h (by simp)

/-- C6 (amended): for a row respread by the Behavioural Respreader whose
product type has a behavioural pattern with percentages summing to 100,
provided every split's destination bucket number maps to an existing
bucket column and the table's bucket columns are distinct with distinct
parseable bucket numbers, the unrounded destination amounts sum exactly
to the sum of the source row's bucket amounts, and the written
(per-destination-bucket round-half-up) amounts sum to it within 0.005
per bucket column. -/
theorem claimC6_respread_conservation
    (P : List PatternRow) (bucket_cols : List ColName) (rows : List BehRow)
    (row : BehRow) (p : PatternRow)
    (hrow : row ∈ rows) (hp : p ∈ P) (htype : p.v_prod_type = row.v_prod_type)
    (huniq : ∀ q ∈ P, q.v_prod_type = p.v_prod_type → q = p)
    (hne : p.splits ≠ [])
    (hsum100 : (p.splits.map (fun s => s.2)).sum = 100)
    (hnodup : bucket_cols.Nodup)
    (hparse : ∀ c ∈ bucket_cols, (parseBucketNo c).isSome)
    (hinj : ∀ c1 ∈ bucket_cols, ∀ c2 ∈ bucket_cols,
      parseBucketNo c1 = parseBucketNo c2 → c1 = c2)
    (hdst : ∀ s ∈ p.splits,
      (lookupAssoc (buildBucketMap bucket_cols) s.1).isSome) :
    ∃ out ∈ load_report_behavioural P bucket_cols rows,
      out.bucketVals
        = (fun c => roundHU2 (spreadRow (buildBucketMap bucket_cols)
            (p.splits.map (fun s => (s.1, s.2 / 100))) row.bucketVals c)) ∧
      sumOver bucket_cols (spreadRow (buildBucketMap bucket_cols)
          (p.splits.map (fun s => (s.1, s.2 / 100))) row.bucketVals)
        = sumOver bucket_cols row.bucketVals ∧
      |sumOver bucket_cols out.bucketVals - sumOver bucket_cols row.bucketVals|
        ≤ (bucket_cols.length : ℚ) * (1 / 200) := by
  have hlp0 := lookupPattern_buildPatterns hp hne huniq
  have hlp : lookupPattern (buildPatterns P) row.v_prod_type
      = some (p.splits.map (fun s => (s.1, s.2 / 100))) := by
    rw [← htype]
    exact hlp0
  have hany : (buildPatterns P).any (fun q => q.1 == row.v_prod_type) = true := by
    unfold lookupPattern at hlp
    obtain ⟨e, he, -⟩ := Option.map_eq_some'.mp hlp
    have hp1 := @List.find?_some _ (fun q : String × List (ℕ × ℚ) =>
      q.1 == row.v_prod_type) e _ he
    exact List.any_eq_true.mpr ⟨e, List.mem_of_find?_eq_some he, hp1⟩
  have hmne : (p.splits.map (fun s => (s.1, s.2 / 100))).isEmpty = false := by
    rw [List.isEmpty_eq_false]
    simp [hne]
  have hproc : processRow (buildPatterns P) (buildBucketMap bucket_cols) row
      = some { row with
          bucketVals := fun c => roundHU2 (spreadRow (buildBucketMap bucket_cols)
            (p.splits.map (fun s => (s.1, s.2 / 100))) row.bucketVals c) } := by
    unfold processRow
    rw [hlp]
    simp only []
    rw [if_neg (by rw [hmne]; exact Bool.false_ne_true)]
  have hvals : ∀ q ∈ buildBucketMap bucket_cols, q.2 ∈ bucket_cols := by
    intro q hq
    have hm := List.mem_map_of_mem Prod.snd hq
    rw [buildBucketMap_snd bucket_cols hparse hinj hnodup] at hm
    exact hm
  have hall : ∀ s ∈ p.splits.map (fun s => (s.1, s.2 / 100)),
      (lookupAssoc (buildBucketMap bucket_cols) s.1).isSome := by
    intro s hs
    obtain ⟨s0, hs0, rfl⟩ := List.mem_map.mp hs
    exact hdst s0 hs0
  have hpct : ((p.splits.map (fun s => (s.1, s.2 / 100))).map
      (fun s => s.2)).sum = 1 := by
    rw [List.map_map]
    rw [show ((fun s : ℕ × ℚ => s.2) ∘ fun s : ℕ × ℚ => (s.1, s.2 / 100))
      = fun s : ℕ × ℚ => s.2 / 100 from rfl]
    rw [sum_map_div, hsum100]
    norm_num
  have hsrc : ((buildBucketMap bucket_cols).map
      (fun q => row.bucketVals q.2)).sum = sumOver bucket_cols row.bucketVals := by
    rw [show (fun q : ℕ × ColName => row.bucketVals q.2)
      = row.bucketVals ∘ Prod.snd from rfl]
    rw [← List.map_map, buildBucketMap_snd bucket_cols hparse hinj hnodup]
    rfl
  have hexact : sumOver bucket_cols (spreadRow (buildBucketMap bucket_cols)
      (p.splits.map (fun s => (s.1, s.2 / 100))) row.bucketVals)
      = sumOver bucket_cols row.bucketVals := by
    rw [sumOver_spreadRow hnodup _ hvals _ hall row.bucketVals, hpct, hsrc, mul_one]
  refine ⟨_, List.mem_filterMap.mpr ⟨row, List.mem_filter.mpr ⟨hrow, hany⟩, hproc⟩,
    rfl, hexact, ?_⟩
  show |sumOver bucket_cols (fun c => roundHU2 (spreadRow (buildBucketMap bucket_cols)
      (p.splits.map (fun s => (s.1, s.2 / 100))) row.bucketVals c))
    - sumOver bucket_cols row.bucketVals| ≤ (bucket_cols.length : ℚ) * (1 / 200)
  rw [← hexact]
  exact sumOver_round_close bucket_cols _

/-- C6 witness: two bucket columns, a 60/40 pattern with both
destinations present: the respread row's bucket sum stays within the
rounding bound of the source sum 100. -/
theorem claimC6_witness :
    ((([((1 : ℕ), (60 : ℚ)), (2, 40)]).map (fun s => s.2)).sum = 100) ∧
    ∃ out ∈ load_report_behavioural [⟨"LOANS", [(1, 60), (2, 40)]⟩]
        ["bucket_001_a".toList, "bucket_002_a".toList]
        [⟨"LOANS", (fun c => if c = "bucket_001_a".toList then 100 else 0), []⟩],
      |sumOver ["bucket_001_a".toList, "bucket_002_a".toList] out.bucketVals
        - sumOver ["bucket_001_a".toList, "bucket_002_a".toList]
            (fun c => if c = "bucket_001_a".toList then (100 : ℚ) else 0)|
        ≤ (((["bucket_001_a".toList, "bucket_002_a".toList] : List ColName).length : ℚ))
            * (1 / 200) := by
  obtain ⟨out, hmem, hval, hexact, hbound⟩ := claimC6_respread_conservation
    [⟨"LOANS", [(1, 60), (2, 40)]⟩]
    ["bucket_001_a".toList, "bucket_002_a".toList]
    [⟨"LOANS", (fun c => if c = "bucket_001_a".toList then 100 else 0), []⟩]
    ⟨"LOANS", (fun c => if c = "bucket_001_a".toList then 100 else 0), []⟩
    ⟨"LOANS", [(1, 60), (2, 40)]⟩
    (List.mem_singleton.mpr rfl) (List.mem_singleton.mpr rfl) rfl
    (by decide) (by decide) (by decide) (by decide) (by decide) (by decide)
    (by decide)
  exact ⟨by decide, out, hmem, hbound⟩

/-- C6 counterexample: a pattern sending 100% to bucket number 2 while
only bucket column 1 exists: the written bucket sum is 0 although the
source bucket sum is 100 — conservation fails when a destination bucket
number has no column. -/
theorem claimC6_counterexample :
    ((([((2 : ℕ), (100 : ℚ))]).map (fun s => s.2)).sum = 100) ∧
    (load_report_behavioural [⟨"LOANS", [(2, 100)]⟩] ["bucket_001_a".toList]
        [⟨"LOANS", (fun c => if c = "bucket_001_a".toList then 100 else 0), []⟩]).map
      (fun out => sumOver ["bucket_001_a".toList] out.bucketVals) = [0] ∧
    sumOver ["bucket_001_a".toList]
      (fun c => if c = "bucket_001_a".toList then (100 : ℚ) else 0) = 100 ∧
    ¬(|(0 : ℚ) - 100| ≤ ((1 : ℕ) : ℚ) * (1 / 200)) := by
  refine ⟨by decide, by decide, by decide, by decide⟩

/-- C10: a pattern split whose destination bucket number maps to no
bucket column contributes to no bucket (removing all unmapped splits
leaves the respread unchanged), and a product type whose pattern has
zero splits is treated as having no pattern at all: it is absent from
the patterns dictionary and no respread output row carries it. -/
theorem claimC10_unmapped_splits_and_empty_patterns
    (bmap : List (ℕ × ColName)) (splits : List (ℕ × ℚ)) (vals : ColName → ℚ)
    (P : List PatternRow) (p : PatternRow)
    (hp : p ∈ P) (hempty : p.splits = [])
    (huniq : ∀ q ∈ P, q.v_prod_type = p.v_prod_type → q = p) :
    spreadRow bmap splits vals
      = spreadRow bmap (splits.filter (fun s => (lookupAssoc bmap s.1).isSome))
          vals ∧
    lookupPattern (buildPatterns P) p.v_prod_type = none ∧
    ∀ (bucket_cols : List ColName) (rows : List BehRow),
      ∀ out ∈ load_report_behavioural P bucket_cols rows,
        out.v_prod_type ≠ p.v_prod_type := by
  have hkeys : ∀ e ∈ buildPatterns P, e.1 ≠ p.v_prod_type := by
    intro e he
    unfold buildPatterns at he
    obtain ⟨x, hx, rfl⟩ := List.mem_map.mp he
    obtain ⟨hxm, hxne⟩ := List.mem_filter.mp hx
    intro hxe
    have hxp := huniq x hxm hxe
    rw [hxp, hempty] at hxne
    simp at hxne
  refine ⟨spreadRow_filter_mapped bmap splits vals, ?_, ?_⟩
  · unfold lookupPattern
    rw [List.find?_eq_none.mpr (fun e he => by simp [hkeys e he])]
    rfl
  · intro bucket_cols rows out hout
    unfold load_report_behavioural at hout
    obtain ⟨r, hr, hpr⟩ := List.mem_filterMap.mp hout
    have hrf := List.mem_filter.mp hr
    have htype_eq : out.v_prod_type = r.v_prod_type := processRow_type hpr
    intro hout_p
    obtain ⟨e, he, hbeq⟩ := List.any_eq_true.mp hrf.2
    have heq : e.1 = r.v_prod_type := by simpa using hbeq
    exact hkeys e he (by rw [heq, ← htype_eq, hout_p])

/-! ## Currency consolidator lemmas -/

theorem pickLatestFrom_spec (l : List FXRow) :
    ∀ a : FXRow, (pickLatestFrom a l = a ∨ pickLatestFrom a l ∈ l) ∧
      ord a.fic_mis_date ≤ ord (pickLatestFrom a l).fic_mis_date ∧
      ∀ r ∈ l, ord r.fic_mis_date ≤ ord (pickLatestFrom a l).fic_mis_date := by
  induction l with
  | nil => exact fun a => ⟨Or.inl rfl, le_refl _, by simp⟩
  | cons x rest ih =>
    intro a
    unfold pickLatestFrom
    split
    · rename_i hlt
      obtain ⟨hmem, hle, hall⟩ := ih x
      refine ⟨?_, le_trans (le_of_lt hlt) hle, ?_⟩
      · rcases hmem with h | h
        · exact Or.inr (by simp [h])
        · exact Or.inr (by simp [h])
      · intro r hr
        rcases List.mem_cons.mp hr with h | h
        · rw [h]; exact hle
        · exact hall r h
    · rename_i hnlt
      obtain ⟨hmem, hle, hall⟩ := ih a
      refine ⟨?_, hle, ?_⟩
      · rcases hmem with h | h
        · exact Or.inl h
        · exact Or.inr (by simp [h])
      · intro r hr
        rcases List.mem_cons.mp hr with h | h
        · rw [h]; exact le_trans (not_lt.mp hnlt) hle
        · exact hall r h

theorem pickLatest_spec {l : List FXRow} (h : l ≠ []) :
    ∃ r, pickLatest l = some r ∧ r ∈ l ∧
      ∀ x ∈ l, ord x.fic_mis_date ≤ ord r.fic_mis_date := by
  cases l with
  | nil => exact absurd rfl h
  | cons x rest =>
    obtain ⟨hmem, hle, hall⟩ := pickLatestFrom_spec rest x
    refine ⟨pickLatestFrom x rest, rfl, ?_, ?_⟩
    · rcases hmem with h | h
      · simp [h]
      · simp [h]
    · intro r hr
      rcases List.mem_cons.mp hr with h | h
      · rw [h]; exact hle
      · exact hall r h

/-- C8 (amended): every consolidated row has each bucket column and the
adjustment column multiplied by one rate and its currency column
rewritten to the reporting currency; the rate is the most recent stored
FX rate (as-of date ≤ snapshot date) from the row's currency into the
reporting currency whenever one exists — including when the row's
currency already equals the reporting currency — and 1 otherwise. -/
theorem claimC8_currency_consolidation
    (fx : List FXRow) (asOf : Date) (reportingCcy : String)
    (rows : List ConsRow) (r : ConsRow) (hr : r ∈ rows) :
    ∃ rate : ℚ,
      ({ v_ccy_code := toUpperStr reportingCcy,
         buckets := r.buckets.map (fun v => v.map (fun x => x * rate)),
         n_adjusted_cash_flow_amount :=
           r.n_adjusted_cash_flow_amount.map (fun x => x * rate),
         static := r.static } : ConsRow)
        ∈ load_report_contractual_cons fx asOf reportingCcy rows ∧
      ((∃ e ∈ fx, e.v_from_ccy_code = r.v_ccy_code
          ∧ e.v_to_ccy_code = toUpperStr reportingCcy
          ∧ e.fic_mis_date.ordLE asOf ∧ e.n_exchange_rate = rate
          ∧ ∀ e' ∈ fx, e'.v_from_ccy_code = r.v_ccy_code →
              e'.v_to_ccy_code = toUpperStr reportingCcy →
              e'.fic_mis_date.ordLE asOf →
              ord e'.fic_mis_date ≤ ord e.fic_mis_date)
        ∨ ((¬ ∃ e ∈ fx, e.v_from_ccy_code = r.v_ccy_code
            ∧ e.v_to_ccy_code = toUpperStr reportingCcy
            ∧ e.fic_mis_date.ordLE asOf) ∧ rate = 1)) := by
  refine ⟨(fxLookup fx asOf reportingCcy r.v_ccy_code).getD 1,
    List.mem_map_of_mem _ hr, ?_⟩
  rcases hfl : fx.filter (fun e =>
      decide (e.v_to_ccy_code = toUpperStr reportingCcy)
        && decide (e.fic_mis_date.ordLE asOf)
        && decide (e.v_from_ccy_code = r.v_ccy_code)) with _ | ⟨x, xs⟩
  · right
    constructor
    · intro ⟨e, he, h1, h2, h3⟩
      have hmem : e ∈ fx.filter (fun e =>
          decide (e.v_to_ccy_code = toUpperStr reportingCcy)
            && decide (e.fic_mis_date.ordLE asOf)
            && decide (e.v_from_ccy_code = r.v_ccy_code)) :=
        List.mem_filter.mpr ⟨he, by simp [h1, h2, h3]⟩
      rw [hfl] at hmem
      exact absurd hmem (by simp)
    · unfold fxLookup
      rw [hfl]
      rfl
  · left
    have hne : fx.filter (fun e =>
        decide (e.v_to_ccy_code = toUpperStr reportingCcy)
          && decide (e.fic_mis_date.ordLE asOf)
          && decide (e.v_from_ccy_code = r.v_ccy_code)) ≠ [] := by
      rw [hfl]
      simp
    obtain ⟨e, hpk, hmem, hmax⟩ := pickLatest_spec hne
    have hconds := List.mem_filter.mp hmem
    have hc := hconds.2
    simp only [Bool.and_eq_true, decide_eq_true_eq] at hc
    refine ⟨e, hconds.1, hc.2, hc.1.1, hc.1.2, ?_, ?_⟩
    · unfold fxLookup
      rw [hfl] at hpk ⊢
      rw [hpk]
      rfl
    · intro e' he' h1 h2 h3
      exact hmax e' (List.mem_filter.mpr ⟨he', by simp [h1, h2, h3]⟩)

/-- C8 witness: a stored EUR→USD rate 2 as of an earlier date doubles
the bucket and adjustment amounts of a EUR row. -/
theorem claimC8_witness :
    ((⟨"EUR", [some 3], some 4, ["k"]⟩ : ConsRow)
      ∈ ([⟨"EUR", [some 3], some 4, ["k"]⟩] : List ConsRow)) ∧
    ∃ rate : ℚ,
      ({ v_ccy_code := toUpperStr "USD",
         buckets := ([some 3] : List (Option ℚ)).map (fun v => v.map (fun x => x * rate)),
         n_adjusted_cash_flow_amount := (some 4 : Option ℚ).map (fun x => x * rate),
         static := ["k"] } : ConsRow)
        ∈ load_report_contractual_cons [⟨⟨1, 1, 1⟩, "EUR", "USD", 2⟩] ⟨1, 1, 2⟩
            "USD" [⟨"EUR", [some 3], some 4, ["k"]⟩] := by
  obtain ⟨rate, hmem, -⟩ := claimC8_currency_consolidation
    [⟨⟨1, 1, 1⟩, "EUR", "USD", 2⟩] ⟨1, 1, 2⟩ "USD"
    [⟨"EUR", [some 3], some 4, ["k"]⟩] ⟨"EUR", [some 3], some 4, ["k"]⟩
    (by decide)
  exact ⟨by decide, rate, hmem⟩

/-- C8 counterexample: a stored USD→USD self-rate of 2 is applied even
though the row's currency already equals the reporting currency, so the
bucket amount is doubled rather than multiplied by 1 as the claim
states. -/
theorem claimC8_counterexample :
    (load_report_contractual_cons [⟨⟨1, 1, 1⟩, "USD", "USD", 2⟩] ⟨1, 1, 2⟩ "USD"
        [⟨"USD", [some 5], none, []⟩]).map (fun r => r.buckets)
      = [[some 10]] ∧
    ([[(some 10 : Option ℚ)]] ≠ [[some 5]]) := by
  refine ⟨by decide, by decide⟩

/-! ## Aggregation error-handling lemmas -/

theorem buildBucketRangesAux_error :
    ∀ (rows : List TimeBucketsRow) (start : Date),
      (∃ tb ∈ rows, tb.multiplier ≠ "Days" ∧ tb.multiplier ≠ "Months"
        ∧ tb.multiplier ≠ "Years") →
      ∃ e, buildBucketRangesAux start rows = .error e := by
  intro rows
  induction rows with
  | nil =>
    intro start h
    obtain ⟨tb, htb, -⟩ := h
    exact absurd htb (by simp)
  | cons tb rest ih =>
    intro start h
    obtain ⟨tb0, hmem, hbad0⟩ := h
    unfold buildBucketRangesAux
    rcases List.mem_cons.mp hmem with hh | hh
    · subst hh
      rw [if_neg hbad0.1, if_neg hbad0.2.1, if_neg hbad0.2.2]
      exact ⟨_, rfl⟩
    · by_cases h1 : tb.multiplier = "Days"
      · rw [if_pos h1]
        obtain ⟨e, he⟩ := ih _ ⟨tb0, hh, hbad0⟩
        rw [he]
        exact ⟨e, rfl⟩
      · rw [if_neg h1]
        by_cases h2 : tb.multiplier = "Months"
        · rw [if_pos h2]
          obtain ⟨e, he⟩ := ih _ ⟨tb0, hh, hbad0⟩
          rw [he]
          exact ⟨e, rfl⟩
        · rw [if_neg h2]
          by_cases h3 : tb.multiplier = "Years"
          · rw [if_pos h3]
            obtain ⟨e, he⟩ := ih _ ⟨tb0, hh, hbad0⟩
            rw [he]
            exact ⟨e, rfl⟩
          · rw [if_neg h3]
            exact ⟨_, rfl⟩

theorem calc_error_of_parse {input : DateInput} {s : DBState} {e : String}
    (h : parseFicMisDate input = .error e) :
    calculate_time_buckets_and_spread input s = .error e := by
  unfold calculate_time_buckets_and_spread
  simp only [h]

theorem calc_error_of_empty {input : DateInput} {s : DBState} {d : Date}
    (h : parseFicMisDate input = .ok d) (htb : s.timeBuckets = []) :
    calculate_time_buckets_and_spread input s
      = .error "No rows in TimeBuckets; cannot bucketise." := by
  unfold calculate_time_buckets_and_spread
  simp only [h]
  have hs : sortBySerial s.timeBuckets = [] := by
    rw [htb]
    rfl
  rw [hs]
  rfl

theorem calc_error_of_multiplier {input : DateInput} {s : DBState} {d : Date}
    (h : parseFicMisDate input = .ok d)
    (hbadm : ∃ tb ∈ s.timeBuckets, tb.multiplier ≠ "Days"
      ∧ tb.multiplier ≠ "Months" ∧ tb.multiplier ≠ "Years") :
    ∃ e, calculate_time_buckets_and_spread input s = .error e := by
  obtain ⟨tb, htb, hb⟩ := hbadm
  have hmem : tb ∈ sortBySerial s.timeBuckets := by
    unfold sortBySerial
    rw [List.mem_insertionSort]
    exact htb
  have hne : (sortBySerial s.timeBuckets).isEmpty = false :=
    List.isEmpty_eq_false.mpr (List.ne_nil_of_mem hmem)
  obtain ⟨e, he⟩ := buildBucketRangesAux_error (sortBySerial s.timeBuckets) d
    ⟨tb, hmem, hb⟩
  refine ⟨e, ?_⟩
  unfold calculate_time_buckets_and_spread
  simp only [h]
  rw [hne]
  simp only [Bool.false_eq_true, if_false]
  have hbr : buildBucketRanges d (sortBySerial s.timeBuckets) = .error e := he
  rw [hbr]

/-- C9: an invalid configuration — an unparseable or non-date snapshot
value, an empty bucket-definition table, or a bucket row with an
unknown unit — makes `calculate_time_buckets_and_spread` raise, and the
single wrapping transaction rolls back, leaving the visible database
state unchanged. -/
theorem claimC9_config_errors_abort (input : DateInput) (s : DBState)
    (hbad : (∃ t, input = .str t ∧ parseIsoDate t = none) ∨ input = .other ∨
      s.timeBuckets = [] ∨
      ∃ tb ∈ s.timeBuckets, tb.multiplier ≠ "Days" ∧ tb.multiplier ≠ "Months"
        ∧ tb.multiplier ≠ "Years") :
    (∃ e, calculate_time_buckets_and_spread input s = .error e) ∧
    commitAtomic s (calculate_time_buckets_and_spread input s) = s := by
  have herr : ∃ e, calculate_time_buckets_and_spread input s = .error e := by
    cases hin : parseFicMisDate input with
    | error e => exact ⟨e, calc_error_of_parse hin⟩
    | ok d =>
      have hbad2 : s.timeBuckets = [] ∨
          ∃ tb ∈ s.timeBuckets, tb.multiplier ≠ "Days" ∧ tb.multiplier ≠ "Months"
            ∧ tb.multiplier ≠ "Years" := by
        rcases hbad with ⟨t, hts, hpn⟩ | hother | hh | hh
        · subst hts
          simp [parseFicMisDate, hpn] at hin
        · subst hother
          simp [parseFicMisDate] at hin
        · exact Or.inl hh
        · exact Or.inr hh
      rcases hbad2 with hh | hh
      · exact ⟨_, calc_error_of_empty hin hh⟩
      · exact calc_error_of_multiplier hin hh
  obtain ⟨e, he⟩ := herr
  exact ⟨⟨e, he⟩, by rw [he]; rfl⟩

/-- C9 witness: the step fails on the unparseable date "not-a-date" and
the state (with one configured bucket row) is untouched. -/
theorem claimC9_witness :
    parseIsoDate "not-a-date" = none ∧
    (∃ e, calculate_time_buckets_and_spread (.str "not-a-date")
        ⟨[], [⟨1, 7, "Days"⟩], [], []⟩ = .error e) ∧
    commitAtomic ⟨[], [⟨1, 7, "Days"⟩], [], []⟩
        (calculate_time_buckets_and_spread (.str "not-a-date")
          ⟨[], [⟨1, 7, "Days"⟩], [], []⟩)
      = ⟨[], [⟨1, 7, "Days"⟩], [], []⟩ := by
  obtain ⟨herr, hcommit⟩ := claimC9_config_errors_abort (.str "not-a-date")
    ⟨[], [⟨1, 7, "Days"⟩], [], []⟩ (Or.inl ⟨"not-a-date", rfl, by decide⟩)
  exact ⟨by decide, herr, hcommit⟩

/-- C10 witness: a split to the absent bucket number 2 is a no-op, and
an empty "DEPOSITS" pattern is absent from the patterns dict. -/
theorem claimC10_witness :
    ((⟨"DEPOSITS", []⟩ : PatternRow) ∈ ([⟨"DEPOSITS", []⟩] : List PatternRow)) ∧
    (spreadRow [(1, "b".toList)] [(2, 1)] (fun _ => 100)
      = spreadRow [(1, "b".toList)]
          (([((2 : ℕ), (1 : ℚ))]).filter
            (fun s => (lookupAssoc [(1, "b".toList)] s.1).isSome))
          (fun _ => 100)) ∧
    lookupPattern (buildPatterns [⟨"DEPOSITS", []⟩]) "DEPOSITS" = none := by
  obtain ⟨hspread, hnone, -⟩ := claimC10_unmapped_splits_and_empty_patterns
    [(1, "b".toList)] [(2, 1)] (fun _ => 100) [⟨"DEPOSITS", []⟩] ⟨"DEPOSITS", []⟩
    (List.mem_singleton.mpr rfl) rfl (by decide)
  exact ⟨List.mem_singleton.mpr rfl, hspread, hnone⟩

/-! ## Pipeline resume lemmas -/

theorem find_eq_head_filter (p : ExecRecord → Bool) :
    ∀ l : List ExecRecord, l.find? p = (l.filter p).head? := by
  intro l
  induction l with
  | nil => rfl
  | cons x t ih =>
    rcases hx : p x with _ | _
    · rw [List.find?_cons_of_neg _ (by simp [hx]),
        List.filter_cons_of_neg (by simp [hx]), ih]
    · rw [List.find?_cons_of_pos _ hx, List.filter_cons_of_pos hx]
      rfl

theorem filter_rev (p : ExecRecord → Bool) :
    ∀ l : List ExecRecord, l.reverse.filter p = (l.filter p).reverse := by
  intro l
  induction l with
  | nil => rfl
  | cons x t ih =>
    rcases hx : p x with _ | _
    · rw [List.reverse_cons, List.filter_append, ih,
        List.filter_cons_of_neg (by simp [hx]),
        List.filter_cons_of_neg (by simp [hx]),
        List.filter_nil, List.append_nil]
    · rw [List.reverse_cons, List.filter_append, ih,
        List.filter_cons_of_pos hx, List.filter_cons_of_pos hx,
        List.filter_nil, List.reverse_cons]

theorem recsFor_of_nodup :
    ∀ {hist : List ExecRecord},
      (hist.map ExecRecord.process_name).Nodup →
      ∀ {r : ExecRecord}, r ∈ hist → recsFor hist r.process_name = [r] := by
  intro hist
  induction hist with
  | nil =>
    intro _ r hr
    exact absurd hr (by simp)
  | cons x t ih =>
    intro hnd r hr
    rw [List.map_cons, List.nodup_cons] at hnd
    rcases List.mem_cons.mp hr with hh | hh
    · have ht : List.filter (fun q => q.process_name == x.process_name) t = [] := by
        rw [List.filter_eq_nil_iff]
        intro q hq hq2
        rw [beq_iff_eq] at hq2
        apply hnd.1
        rw [← hq2]
        exact List.mem_map_of_mem ExecRecord.process_name hq
      rw [hh]
      show List.filter (fun q => q.process_name == x.process_name) (x :: t) = [x]
      rw [List.filter_cons_of_pos (by simp), ht]
    · have hxne : x.process_name ≠ r.process_name := by
        intro he
        apply hnd.1
        rw [he]
        exact List.mem_map_of_mem ExecRecord.process_name hh
      have hih := ih hnd.2 hh
      show List.filter (fun q => q.process_name == r.process_name) (x :: t) = [r]
      rw [List.filter_cons_of_neg (by simp [hxne])]
      exact hih

theorem statusMapGet_of_nodup {hist : List ExecRecord}
    (hnodup : (hist.map ExecRecord.process_name).Nodup)
    {r : ExecRecord} (hr : r ∈ hist) :
    statusMapGet hist r.process_name = some r.status := by
  have h1 : recsFor hist r.process_name = [r] := recsFor_of_nodup hnodup hr
  unfold statusMapGet
  rw [find_eq_head_filter, filter_rev]
  rw [show hist.filter (fun q => q.process_name == r.process_name) = [r] from h1]
  rfl

theorem statusMapGet_exists {hist : List ExecRecord} {name : String}
    {st : StepStatus} (h : statusMapGet hist name = some st) :
    ∃ r ∈ hist, r.process_name = name ∧ r.status = st := by
  unfold statusMapGet at h
  rw [Option.map_eq_some'] at h
  obtain ⟨r, hfind, hst⟩ := h
  refine ⟨r, List.mem_reverse.mp (List.mem_of_find?_eq_some hfind), ?_, hst⟩
  have hp := @List.find?_some _ (fun q : ExecRecord => q.process_name == name)
    r _ hfind
  rw [beq_iff_eq] at hp
  exact hp

theorem recsFor_append_ne (h : List ExecRecord) (q : ExecRecord) (name : String)
    (hne : q.process_name ≠ name) :
    recsFor (h ++ [q]) name = recsFor h name := by
  unfold recsFor
  rw [List.filter_append]
  have hq : List.filter (fun z => z.process_name == name) [q] = [] := by
    simp [List.filter_cons, hne]
  rw [hq, List.append_nil]

theorem recsFor_map_pres (f : ExecRecord → ExecRecord)
    (hf : ∀ q, (f q).process_name = q.process_name) :
    ∀ (h : List ExecRecord) (name : String),
      recsFor (h.map f) name = (recsFor h name).map f := by
  intro h name
  induction h with
  | nil => rfl
  | cons x t ih =>
    show List.filter (fun q => q.process_name == name) (f x :: List.map f t)
      = List.map f (List.filter (fun q => q.process_name == name) (x :: t))
    rcases hx : (x.process_name == name) with _ | _
    · rw [List.filter_cons_of_neg (by simp [hf, hx]),
        List.filter_cons_of_neg (by simp [hx])]
      exact ih
    · rw [List.filter_cons_of_pos (by simp [hf, hx]),
        List.filter_cons_of_pos (by simp [hx]), List.map_cons]
      rw [show List.filter (fun q => q.process_name == name) (List.map f t)
        = List.map f (List.filter (fun q => q.process_name == name) t) from ih]

theorem recsFor_updateFirst_ne :
    ∀ (h : List ExecRecord) (nm name : String) (st : StepStatus),
      nm ≠ name →
      recsFor (updateFirst h nm st) name = recsFor h name := by
  intro h nm name st hne
  induction h with
  | nil => rfl
  | cons x t ih =>
    unfold updateFirst
    by_cases hx : x.process_name = nm
    · rw [if_pos hx]
      have h1 : x.process_name ≠ name := by
        rw [hx]
        exact hne
      show List.filter (fun q => q.process_name == name)
          ({ x with status := st } :: t)
        = List.filter (fun q => q.process_name == name) (x :: t)
      rw [List.filter_cons_of_neg (by simp [h1]),
        List.filter_cons_of_neg (by simp [h1])]
    · rw [if_neg hx]
      rcases hb : (x.process_name == name) with _ | _
      · show List.filter (fun q => q.process_name == name)
            (x :: updateFirst t nm st)
          = List.filter (fun q => q.process_name == name) (x :: t)
        rw [List.filter_cons_of_neg (by simp [hb]),
          List.filter_cons_of_neg (by simp [hb])]
        exact ih
      · show List.filter (fun q => q.process_name == name)
            (x :: updateFirst t nm st)
          = List.filter (fun q => q.process_name == name) (x :: t)
        have hih : List.filter (fun q => q.process_name == name) (updateFirst t nm st)
            = List.filter (fun q => q.process_name == name) t := ih
        simp only [List.filter_cons, hb, if_true, hih]

theorem recsFor_ensureStep (hist : List ExecRecord) (rem : List String)
    (r : ExecRecord) (hr : r.status = StepStatus.Success)
    (hsome : statusMapGet hist r.process_name ≠ none)
    (h : List ExecRecord) (name : String)
    (hinv : recsFor h r.process_name = [r]) :
    recsFor (ensureStep hist rem h name) r.process_name = [r] := by
  unfold ensureStep
  rcases hm : statusMapGet hist name with _ | st
  · simp only [hm]
    have hne : name ≠ r.process_name := by
      intro he
      rw [he] at hm
      exact hsome hm
    rw [recsFor_append_ne h _ _ hne]
    exact hinv
  · simp only [hm]
    by_cases hr2 : name ∈ rem
    · rw [if_pos hr2]
      rw [recsFor_map_pres _ (fun q => by
        by_cases hc : q.process_name = name
            ∧ (q.status = StepStatus.Failed ∨ q.status = StepStatus.Stopped)
        · rw [if_pos hc]
        · rw [if_neg hc]) h r.process_name]
      rw [hinv]
      have hfr : (if r.process_name = name
          ∧ (r.status = StepStatus.Failed ∨ r.status = StepStatus.Stopped)
          then { r with status := StepStatus.Pending } else r) = r := by
        rw [if_neg]
        intro hc
        rcases hc.2 with hc2 | hc2
        · rw [hr] at hc2
          exact StepStatus.noConfusion hc2
        · rw [hr] at hc2
          exact StepStatus.noConfusion hc2
      simp only [List.map_cons, List.map_nil]
      rw [hfr]
    · rw [if_neg hr2]
      exact hinv

theorem recsFor_ensureFold (hist : List ExecRecord) (rem : List String)
    (r : ExecRecord) (hr : r.status = StepStatus.Success)
    (hsome : statusMapGet hist r.process_name ≠ none) :
    ∀ (steps : List String) (h : List ExecRecord),
      recsFor h r.process_name = [r] →
      recsFor (steps.foldl (ensureStep hist rem) h) r.process_name = [r] := by
  intro steps
  induction steps with
  | nil =>
    intro h hh
    exact hh
  | cons n rest ih =>
    intro h hh
    rw [List.foldl_cons]
    exact ih _ (recsFor_ensureStep hist rem r hr hsome h n hh)

theorem execLoopGo_cons_true (outcome : String → Bool) (name : String)
    (rest : List String) (h : List ExecRecord) (execed : List String) :
    execLoopGo outcome (name :: rest) h execed true = (h, execed) := rfl

theorem execLoopGo_cons_false (outcome : String → Bool) (name : String)
    (rest : List String) (h : List ExecRecord) (execed : List String) :
    execLoopGo outcome (name :: rest) h execed false
      = match h.find? (fun q => q.process_name == name) with
        | some q =>
          if q.status = StepStatus.Success then
            execLoopGo outcome rest h execed false
          else
            execLoopGo outcome rest (updateFirst h name (execResult outcome name))
              (execed ++ [name])
              (decide (execResult outcome name = StepStatus.Failed))
        | none =>
          execLoopGo outcome rest (h ++ [⟨name, execResult outcome name⟩])
            (execed ++ [name])
            (decide (execResult outcome name = StepStatus.Failed)) := rfl

theorem execLoopGo_inv (outcome : String → Bool) (r : ExecRecord)
    (hr : r.status = StepStatus.Success) :
    ∀ (steps : List String) (h : List ExecRecord) (execed : List String)
      (b : Bool),
      recsFor h r.process_name = [r] → r.process_name ∉ execed →
      recsFor (execLoopGo outcome steps h execed b).1 r.process_name = [r] ∧
      r.process_name ∉ (execLoopGo outcome steps h execed b).2 := by
  intro steps
  induction steps with
  | nil =>
    intro h execed b h1 h2
    exact ⟨h1, h2⟩
  | cons name rest ih =>
    intro h execed b h1 h2
    cases b
    · rw [execLoopGo_cons_false]
      rcases hfind : h.find? (fun q => q.process_name == name) with _ | q
      · simp only [hfind]
        have hne : name ≠ r.process_name := by
          intro he
          have hfr : h.find? (fun q => q.process_name == name) = some r := by
            rw [find_eq_head_filter, he]
            rw [show h.filter (fun q => q.process_name == r.process_name) = [r]
              from h1]
            rfl
          rw [hfind] at hfr
          exact Option.noConfusion hfr
        apply ih
        · rw [recsFor_append_ne h _ _ hne]
          exact h1
        · intro hmem
          rcases List.mem_append.mp hmem with h3 | h3
          · exact h2 h3
          · exact hne (List.mem_singleton.mp h3).symm
      · simp only [hfind]
        by_cases hqs : q.status = StepStatus.Success
        · rw [if_pos hqs]
          exact ih h execed false h1 h2
        · rw [if_neg hqs]
          have hne : name ≠ r.process_name := by
            intro he
            have hfr : h.find? (fun q => q.process_name == name) = some r := by
              rw [find_eq_head_filter, he]
              rw [show h.filter (fun q => q.process_name == r.process_name) = [r]
                from h1]
              rfl
            rw [hfind] at hfr
            have hqr : q = r := Option.some.inj hfr
            rw [hqr, hr] at hqs
            exact hqs rfl
          apply ih
          · rw [recsFor_updateFirst_ne h name r.process_name _ hne]
            exact h1
          · intro hmem
            rcases List.mem_append.mp hmem with h3 | h3
            · exact h2 h3
            · exact hne (List.mem_singleton.mp h3).symm
    · rw [execLoopGo_cons_true]
      exact ⟨h1, h2⟩

theorem execLoopGo_execed_sub (outcome : String → Bool) :
    ∀ (steps : List String) (h : List ExecRecord) (execed : List String)
      (b : Bool) (n : String),
      n ∈ (execLoopGo outcome steps h execed b).2 → n ∈ execed ∨ n ∈ steps := by
  intro steps
  induction steps with
  | nil =>
    intro h execed b n hn
    exact Or.inl hn
  | cons name rest ih =>
    intro h execed b n hn
    cases b
    · rw [execLoopGo_cons_false] at hn
      rcases hfind : h.find? (fun q => q.process_name == name) with _ | q
      · simp only [hfind] at hn
        rcases ih _ _ _ n hn with hh | hh
        · rcases List.mem_append.mp hh with h3 | h3
          · exact Or.inl h3
          · exact Or.inr (List.mem_cons.mpr (Or.inl (List.mem_singleton.mp h3)))
        · exact Or.inr (List.mem_cons.mpr (Or.inr hh))
      · simp only [hfind] at hn
        by_cases hqs : q.status = StepStatus.Success
        · rw [if_pos hqs] at hn
          rcases ih _ _ _ n hn with hh | hh
          · exact Or.inl hh
          · exact Or.inr (List.mem_cons.mpr (Or.inr hh))
        · rw [if_neg hqs] at hn
          rcases ih _ _ _ n hn with hh | hh
          · rcases List.mem_append.mp hh with h3 | h3
            · exact Or.inl h3
            · exact Or.inr (List.mem_cons.mpr (Or.inl (List.mem_singleton.mp h3)))
          · exact Or.inr (List.mem_cons.mpr (Or.inr hh))
    · rw [execLoopGo_cons_true] at hn
      exact Or.inl hn

/-- C7: when a run is resumed from a step of the pipeline (history
names unique per run, as one record per step and run is kept), the
resume executes only steps at or after the requested step in pipeline
order whose recorded status is not Success; every step already recorded
Success is skipped, is never re-executed, and its single Success record
survives the resume unchanged and unduplicated. -/
theorem claimC7_pipeline_resumability (outcome : String → Bool)
    (hist : List ExecRecord) (continueStep : String) (idx : ℕ)
    (hidx : TOTAL_PIPELINE_STEPS.findIdx? (fun s => s == continueStep) = some idx)
    (hnodup : (hist.map ExecRecord.process_name).Nodup) :
    ∃ h2 execed,
      continueRun outcome hist continueStep = some (h2, execed) ∧
      (∀ n ∈ execed,
        statusMapGet hist n ≠ some StepStatus.Success ∧
        n ∈ TOTAL_PIPELINE_STEPS.drop idx) ∧
      (∀ r ∈ hist, r.status = StepStatus.Success →
        r.process_name ∉ execed ∧ recsFor h2 r.process_name = [r]) := by
  have hpres : ∀ r ∈ hist, r.status = StepStatus.Success →
      recsFor (execLoopGo outcome (remainingSteps hist continueStep idx)
        (ensurePhase hist (remainingSteps hist continueStep idx)) [] false).1
        r.process_name = [r] ∧
      r.process_name ∉ (execLoopGo outcome (remainingSteps hist continueStep idx)
        (ensurePhase hist (remainingSteps hist continueStep idx)) [] false).2 := by
    intro r hrmem hrst
    have h1 : recsFor hist r.process_name = [r] := recsFor_of_nodup hnodup hrmem
    have hsome : statusMapGet hist r.process_name ≠ none := by
      rw [statusMapGet_of_nodup hnodup hrmem]
      exact Option.noConfusion
    have h2 : recsFor (ensurePhase hist (remainingSteps hist continueStep idx))
        r.process_name = [r] :=
      recsFor_ensureFold hist _ r hrst hsome TOTAL_PIPELINE_STEPS hist h1
    exact execLoopGo_inv outcome r hrst _ _ [] false h2 (by simp)
  refine ⟨(execLoopGo outcome (remainingSteps hist continueStep idx)
      (ensurePhase hist (remainingSteps hist continueStep idx)) [] false).1,
    (execLoopGo outcome (remainingSteps hist continueStep idx)
      (ensurePhase hist (remainingSteps hist continueStep idx)) [] false).2,
    ?_, ?_, ?_⟩
  · unfold continueRun
    rw [hidx]
  · intro n hn
    have hsub := execLoopGo_execed_sub outcome _ _ _ _ n hn
    rcases hsub with hh | hh
    · exact absurd hh (by simp)
    · have hmem := List.mem_filter.mp hh
      constructor
      · intro heq
        obtain ⟨r, hrmem, hrname, hrst⟩ := statusMapGet_exists heq
        have := (hpres r hrmem hrst).2
        rw [hrname] at this
        exact this hn
      · exact hmem.1
  · intro r hrmem hrst
    exact ⟨(hpres r hrmem hrst).2, (hpres r hrmem hrst).1⟩

/-- C7 witness: the spec scenario [A Success, B Failed, C Pending],
resumed from B with every executed step succeeding. -/
theorem claimC7_witness :
    ∃ h2 execed,
      continueRun (fun _ => true)
          [⟨"Process First Day Cashflows", StepStatus.Success⟩,
           ⟨"Process Credit Line Cashflows", StepStatus.Failed⟩,
           ⟨"Process Loan Cashflows", StepStatus.Pending⟩]
          "Process Credit Line Cashflows" = some (h2, execed) ∧
      (∀ n ∈ execed,
        statusMapGet
            [⟨"Process First Day Cashflows", StepStatus.Success⟩,
             ⟨"Process Credit Line Cashflows", StepStatus.Failed⟩,
             ⟨"Process Loan Cashflows", StepStatus.Pending⟩] n
          ≠ some StepStatus.Success ∧
        n ∈ TOTAL_PIPELINE_STEPS.drop 1) ∧
      (∀ r ∈ [⟨"Process First Day Cashflows", StepStatus.Success⟩,
              ⟨"Process Credit Line Cashflows", StepStatus.Failed⟩,
              ⟨"Process Loan Cashflows", StepStatus.Pending⟩],
        r.status = StepStatus.Success →
        r.process_name ∉ execed ∧ recsFor h2 r.process_name = [r]) :=
  claimC7_pipeline_resumability (fun _ => true)
    [⟨"Process First Day Cashflows", StepStatus.Success⟩,
     ⟨"Process Credit Line Cashflows", StepStatus.Failed⟩,
     ⟨"Process Loan Cashflows", StepStatus.Pending⟩]
    "Process Credit Line Cashflows" 1 (by rfl) (by decide)

end ALM
